import Mathlib

/-!
Shallow embedding of the restaurant menu / ordering web application.

The embedding covers the code paths the specification talks about:
order placement (`OrderContext.placeOrder`), the staff order dashboard
(`updateOrderStatus`, `deleteTableOrders`), the table-QR resize control
(`TableQRDialog.updateTables`), the menu editor save
(`menuService.saveRestaurantMenu`), the schema-drift recovery helper
(`setupDatabase.handleRelationDoesNotExistError`) and the post-checkout
cleanup (`ThankYou`).

JavaScript numbers are modelled by `JSNum`: a rational value or `NaN`
(the code paths under study only add, multiply and compare, so neither
infinities nor float rounding are observable here).  Database tables are
modelled as lists of row structures; supabase query builders
(`.eq`, `.in`, `.delete`, `.insert`, `.upsert`, `.update`) become the
corresponding list operations.
-/

namespace WebFixer

/-- A JavaScript number: either an actual (rational) value or `NaN`. -/
inductive JSNum where
  | num (q : ℚ)
  | nan
  deriving DecidableEq

namespace JSNum

/-- JavaScript `isNaN`. -/
def isNaN : JSNum → Bool
  | nan => true
  | num _ => false

/-- JavaScript addition: `NaN` propagates. -/
def add : JSNum → JSNum → JSNum
  | num a, num b => num (a + b)
  | _, _ => nan

/-- JavaScript multiplication: `NaN` propagates. -/
def mul : JSNum → JSNum → JSNum
  | num a, num b => num (a * b)
  | _, _ => nan

end JSNum

/-! ### Cart model (`CartContext` data carried into `OrderContext`) -/

/-- A selected variant of a cart line (`item.selectedVariant`). -/
structure CartVariant where
  id : String
  name : String
  /-- the variant price after JavaScript numeric coercion
      (`parseFloat` of a string price or `Number` of a numeric one) -/
  price : JSNum
  deriving DecidableEq

/-- One cart line as `OrderContext.placeOrder` receives it. -/
structure CartItem where
  id : String
  name : String
  quantity : ℕ
  /-- the item price after JavaScript numeric coercion -/
  price : JSNum
  selectedVariant : Option CartVariant
  deriving DecidableEq

/-- The effective unit price of a cart line: the selected variant's price
if a variant is selected, else the item's price
(`item.selectedVariant ? item.selectedVariant.price : item.price`). -/
def effectivePrice (item : CartItem) : JSNum :=
  match item.selectedVariant with
  | some v => v.price
  | none => item.price

/-- Modelled from the spec: `CartContext` (and its `getCartTotal`) is not
among the provided sources; the spec describes the cart as an in-memory
list of selected items/variants/quantities whose total is the sum of the
line totals, so the cart total is the sum over lines of effective unit
price times quantity, with JavaScript `NaN` propagation. -/
def getCartTotal (cartItems : List CartItem) : JSNum :=
  cartItems.foldr
    (fun item acc => JSNum.add (JSNum.mul (effectivePrice item) (JSNum.num item.quantity)) acc)
    (JSNum.num 0)

/-! ### Order rows (`orders` / `order_items` tables) -/

/-- A row of the `orders` table as inserted by `placeOrder`. -/
structure OrderRow where
  id : String
  restaurant_id : String
  total_amount : ℚ
  status : String
  device_id : String
  table_id : Option String
  deriving DecidableEq

/-- A row of the `order_items` table as inserted by `placeOrder`. -/
structure OrderItemRow where
  order_id : String
  item_id : String
  item_name : String
  quantity : ℕ
  price : ℚ
  variant_name : Option String
  variant_id : Option String
  deriving DecidableEq

/-- The price written into an `order_items` row: the effective price when
it coerces to a number, `0` when it is `NaN`
(`if (isNaN(price)) price = 0`). -/
def orderItemPrice (item : CartItem) : ℚ :=
  match effectivePrice item with
  | JSNum.num q => q
  | JSNum.nan => 0

/-- The `order_items` row built from one cart line
(`item.id || 'unknown'`, `item.selectedVariant?.name || null`,
`item.selectedVariant?.id || null`; `||` maps the empty string to the
fallback). -/
def orderItemOf (orderId : String) (item : CartItem) : OrderItemRow where
  order_id := orderId
  item_id := if item.id = "" then "unknown" else item.id
  item_name := item.name
  quantity := item.quantity
  price := orderItemPrice item
  variant_name :=
    match item.selectedVariant with
    | some v => if v.name = "" then none else some v.name
    | none => none
  variant_id :=
    match item.selectedVariant with
    | some v => if v.id = "" then none else some v.id
    | none => none

/-- Environment of one `placeOrder` call: the ambient device id, the id
the database assigns to the inserted order, and whether the two inserts
fail on the backend. -/
structure PlaceOrderEnv where
  deviceId : String
  newOrderId : String
  orderInsertError : Bool
  itemsInsertError : Bool
  deriving DecidableEq

/-- Observable outcome of one `placeOrder` call. -/
structure PlaceResult where
  ordersInserted : List OrderRow
  itemsInserted : List OrderItemRow
  cartAfter : List CartItem
  cartCleared : Bool
  toastErrorShown : Bool
  toastSuccessShown : Bool
  deriving DecidableEq

/-- Drop leading whitespace characters from a character list. -/
def dropLeadingWs : List Char → List Char
  | [] => []
  | c :: cs => if c.isWhitespace then dropLeadingWs cs else c :: cs

/-- JavaScript `String.prototype.trim`: strip leading and trailing
whitespace. -/
def jsTrim (s : String) : String :=
  String.mk ((dropLeadingWs ((dropLeadingWs s.data).reverse)).reverse)

/-- The `table_id` guard of `placeOrder`:
`tableId && tableId.trim() !== '' && tableId !== 'undefined' && tableId !== 'null'`. -/
def tableIdAccepted : Option String → Bool
  | none => false
  | some t => t ≠ "" && jsTrim t ≠ "" && t ≠ "undefined" && t ≠ "null"

/-- `placeOrder` from `src/contexts/OrderContext.tsx`, lines 129-254.
`cartTotal` is the value returned by the external `getCartTotal()` call;
the happy path inserts one order row, one order-item row per cart line,
and only then clears the cart. -/
def placeOrder (env : PlaceOrderEnv) (restaurantId : String) (tableId : Option String)
    (cartItems : List CartItem) (cartTotal : JSNum) : PlaceResult :=
  if cartItems.length = 0 then
    -- toast.error('Your cart is empty')
    ⟨[], [], cartItems, false, true, false⟩
  else if restaurantId = "" ∨ restaurantId = "undefined" ∨ restaurantId = "null" then
    -- toast.error('Cannot place order: Invalid restaurant information')
    ⟨[], [], cartItems, false, true, false⟩
  else
    match cartTotal with
    | JSNum.nan =>
      -- isNaN(cartTotal): toast.error('Cannot place order: Invalid cart total')
      ⟨[], [], cartItems, false, true, false⟩
    | JSNum.num t =>
      if t ≤ 0 then
        ⟨[], [], cartItems, false, true, false⟩
      else
        let orderRow : OrderRow :=
          { id := env.newOrderId
            restaurant_id := restaurantId
            total_amount := t
            status := "placed"
            device_id := env.deviceId
            table_id := if tableIdAccepted tableId then tableId else none }
        if env.orderInsertError then
          ⟨[], [], cartItems, false, true, false⟩
        else if env.newOrderId = "" then
          -- !order.id: throw before preparing order items
          ⟨[orderRow], [], cartItems, false, true, false⟩
        else
          let orderItems := cartItems.map (orderItemOf env.newOrderId)
          if env.itemsInsertError then
            ⟨[orderRow], [], cartItems, false, true, false⟩
          else
            ⟨[orderRow], orderItems, [], true, false, true⟩

/-- Sum of `price * quantity` over a list of `order_items` rows. -/
def itemsSum (rows : List OrderItemRow) : ℚ :=
  (rows.map (fun r => r.price * (r.quantity : ℚ))).sum

/-! ### Order dashboard (`OrderDashboard`) -/

/-- `updateOrderStatus` from the dashboard: a supabase
`update({ status }).eq('id', orderId)`. -/
def updateOrderStatus (db : List OrderRow) (orderId : String) (newStatus : String) :
    List OrderRow :=
  db.map (fun o => if o.id = orderId then { o with status := newStatus } else o)

/-- The only status value the dashboard UI offers for an order in a given
status: each of the three render sites shows a button for
`placed → preparing`, `preparing → ready`, `ready → completed` and
nothing else. -/
def dashboardNextStatus (status : String) : Option String :=
  if status = "placed" then some ("preparing")
  else if status = "preparing" then some ("ready")
  else if status = "ready" then some ("completed")
  else none

/-- Position of a status in the linear progression
`placed → preparing → ready → completed`. -/
def statusRank (status : String) : ℕ :=
  if status = "placed" then 0
  else if status = "preparing" then 1
  else if status = "ready" then 2
  else if status = "completed" then 3
  else 4

/-- `deleteTableOrders` from the dashboard: a supabase
`delete().eq('table_id', tableId)`; SQL equality does not match a NULL
`table_id`. -/
def deleteTableOrders (db : List OrderRow) (tableId : String) : List OrderRow :=
  db.filter (fun o => decide (o.table_id ≠ some tableId))

end WebFixer

namespace WebFixer

/-! ### Arithmetic facts about `JSNum` -/

theorem JSNum.add_eq_num {x y : JSNum} {t : ℚ} (h : JSNum.add x y = JSNum.num t) :
    ∃ a b, x = JSNum.num a ∧ y = JSNum.num b ∧ t = a + b := by
  cases x <;> cases y <;> simp_all [JSNum.add]

theorem JSNum.mul_eq_num {x y : JSNum} {t : ℚ} (h : JSNum.mul x y = JSNum.num t) :
    ∃ a b, x = JSNum.num a ∧ y = JSNum.num b ∧ t = a * b := by
  cases x <;> cases y <;> simp_all [JSNum.mul]

theorem getCartTotal_cons (i : CartItem) (l : List CartItem) :
    getCartTotal (i :: l) =
      JSNum.add (JSNum.mul (effectivePrice i) (JSNum.num i.quantity)) (getCartTotal l) := rfl

/-- When the cart total evaluates to an actual number `t`, every line's
effective price is a number and the inserted per-line prices sum to `t`. -/
theorem itemsSum_map_of_getCartTotal (oid : String) :
    ∀ (cart : List CartItem) (t : ℚ), getCartTotal cart = JSNum.num t →
      itemsSum (cart.map (orderItemOf oid)) = t := by
  intro cart
  induction cart with
  | nil =>
    intro t ht
    simp only [getCartTotal, List.foldr_nil, JSNum.num.injEq] at ht
    simp [itemsSum, ht.symm]
  | cons i l ih =>
    intro t ht
    rw [getCartTotal_cons] at ht
    obtain ⟨a, b, hmul, htail, hab⟩ := JSNum.add_eq_num ht
    obtain ⟨p, q, heff, hq, hpq⟩ := JSNum.mul_eq_num hmul
    have hprice : orderItemPrice i = p := by
      simp [orderItemPrice, heff]
    have hqty : (i.quantity : ℚ) = q := by
      simpa using congrArg (fun x => match x with | JSNum.num v => v | JSNum.nan => 0) hq
    have hsum : itemsSum (l.map (orderItemOf oid)) = b := ih b htail
    simp [itemsSum, orderItemOf, List.map_cons, List.sum_cons] at hsum ⊢
    simp only [hprice, hqty]
    rw [hsum, hab, hpq]

end WebFixer

namespace WebFixer

/-- On a valid call with no backend errors, `placeOrder` reduces to one
inserted order row, one order-item row per cart line, and a cleared cart. -/
theorem placeOrder_success_eq (env : PlaceOrderEnv) (restaurantId : String)
    (tableId : Option String) (cartItems : List CartItem) (t : ℚ)
    (hne : cartItems ≠ [])
    (hrid : ¬(restaurantId = "" ∨ restaurantId = "undefined" ∨ restaurantId = "null"))
    (hpos : 0 < t)
    (hoe : env.orderInsertError = false) (hid : env.newOrderId ≠ "")
    (hie : env.itemsInsertError = false) :
    placeOrder env restaurantId tableId cartItems (JSNum.num t) =
      ⟨[{ id := env.newOrderId, restaurant_id := restaurantId, total_amount := t,
          status := "placed", device_id := env.deviceId,
          table_id := if tableIdAccepted tableId then tableId else none }],
        cartItems.map (orderItemOf env.newOrderId), [], true, false, true⟩ := by
  unfold placeOrder
  rw [if_neg (by simpa using hne), if_neg hrid]
  simp only []
  rw [if_neg (not_le.mpr hpos)]
  simp [hoe, hid, hie]

end WebFixer

namespace WebFixer

/-- C1: for every non-empty cart, a `placeOrder` call that runs to
completion (valid restaurant id, cart total a positive number, neither
insert failing) creates exactly one `orders` row and exactly one
`order_items` row per cart line — the line's item, selected variant,
quantity and unit-price snapshot — and the sum over the inserted
`order_items` of `price * quantity` equals the inserted order's
`total_amount`. -/
theorem placeOrder_one_order_items_sum_eq_total (env : PlaceOrderEnv)
    (restaurantId : String) (tableId : Option String)
    (cartItems : List CartItem) (t : ℚ)
    (hne : cartItems ≠ [])
    (hrid : ¬(restaurantId = "" ∨ restaurantId = "undefined" ∨ restaurantId = "null"))
    (htotal : getCartTotal cartItems = JSNum.num t) (hpos : 0 < t)
    (hoe : env.orderInsertError = false) (hid : env.newOrderId ≠ "")
    (hie : env.itemsInsertError = false) :
    (placeOrder env restaurantId tableId cartItems (getCartTotal cartItems)).ordersInserted.length
        = 1 ∧
    (placeOrder env restaurantId tableId cartItems (getCartTotal cartItems)).itemsInserted
        = cartItems.map (orderItemOf env.newOrderId) ∧
    ∀ o ∈ (placeOrder env restaurantId tableId cartItems (getCartTotal cartItems)).ordersInserted,
      itemsSum (placeOrder env restaurantId tableId cartItems
          (getCartTotal cartItems)).itemsInserted = o.total_amount := by
  rw [htotal, placeOrder_success_eq env restaurantId tableId cartItems t hne hrid hpos hoe hid hie]
  refine ⟨rfl, rfl, ?_⟩
  intro o ho
  simp only [List.mem_singleton] at ho
  subst ho
  exact itemsSum_map_of_getCartTotal env.newOrderId cartItems t htotal

/-- Witness for C1 at a concrete two-line cart. -/
theorem placeOrder_one_order_items_sum_eq_total_witness :
    (placeOrder ⟨"devA", "orderA", false, false⟩ "restA" none
        [⟨"i1", "Tea", 2, JSNum.num 3, none⟩,
         ⟨"i2", "Cake", 1, JSNum.num 4, some ⟨"v1", "Large", JSNum.num 6⟩⟩]
        (getCartTotal [⟨"i1", "Tea", 2, JSNum.num 3, none⟩,
         ⟨"i2", "Cake", 1, JSNum.num 4, some ⟨"v1", "Large", JSNum.num 6⟩⟩])).ordersInserted.length
      = 1 := by
  have h := placeOrder_one_order_items_sum_eq_total ⟨"devA", "orderA", false, false⟩
    "restA" none
    [⟨"i1", "Tea", 2, JSNum.num 3, none⟩,
     ⟨"i2", "Cake", 1, JSNum.num 4, some ⟨"v1", "Large", JSNum.num 6⟩⟩]
    12 (by decide) (by decide)
    (by norm_num [getCartTotal, effectivePrice, JSNum.mul, JSNum.add])
    (by norm_num) rfl (by decide) rfl
  exact h.1

/-- C7: whenever a `placeOrder` call does not clear the cart — any
failure path: empty cart, invalid restaurant id, invalid cart total,
order-insert error, missing returned order id, or items-insert error —
the cart is returned unchanged and a failure toast is shown; and the cart
is cleared only when both the order insert and the order-items insert
succeeded. -/
theorem placeOrder_failure_leaves_cart (env : PlaceOrderEnv) (restaurantId : String)
    (tableId : Option String) (cartItems : List CartItem) (cartTotal : JSNum) :
    ((placeOrder env restaurantId tableId cartItems cartTotal).cartCleared = false →
      (placeOrder env restaurantId tableId cartItems cartTotal).cartAfter = cartItems ∧
      (placeOrder env restaurantId tableId cartItems cartTotal).toastErrorShown = true) ∧
    ((placeOrder env restaurantId tableId cartItems cartTotal).cartCleared = true →
      env.orderInsertError = false ∧ env.itemsInsertError = false ∧
      (placeOrder env restaurantId tableId cartItems cartTotal).toastSuccessShown = true) := by
  unfold placeOrder
  repeat' split
  all_goals simp_all

/-- Witness for C7: a concrete failing call (items insert errors out)
leaves the one-line cart unchanged, with a failure toast. -/
theorem placeOrder_failure_leaves_cart_witness :
    (placeOrder ⟨"devA", "orderA", false, true⟩ "restA" none
        [⟨"i1", "Tea", 2, JSNum.num 3, none⟩] (JSNum.num 6)).cartAfter
      = [⟨"i1", "Tea", 2, JSNum.num 3, none⟩] := by
  have h := (placeOrder_failure_leaves_cart ⟨"devA", "orderA", false, true⟩ "restA" none
    [⟨"i1", "Tea", 2, JSNum.num 3, none⟩] (JSNum.num 6)).1 (by decide)
  exact h.1

end WebFixer

namespace WebFixer

/-- C10: when a cart line's effective price does not coerce to a number
(`NaN`), a `placeOrder` call whose externally computed cart total is
still a positive number does not fail: the call succeeds, the line's
`order_items` row is inserted with price `0`, and the order's
`total_amount` is the cart total — so the per-item sum can differ from
`total_amount`. -/
theorem placeOrder_nan_price_inserts_zero (env : PlaceOrderEnv)
    (restaurantId : String) (tableId : Option String)
    (cartItems : List CartItem) (item : CartItem) (t : ℚ)
    (hmem : item ∈ cartItems) (hnan : effectivePrice item = JSNum.nan)
    (hrid : ¬(restaurantId = "" ∨ restaurantId = "undefined" ∨ restaurantId = "null"))
    (hpos : 0 < t)
    (hoe : env.orderInsertError = false) (hid : env.newOrderId ≠ "")
    (hie : env.itemsInsertError = false) :
    (placeOrder env restaurantId tableId cartItems (JSNum.num t)).toastSuccessShown = true ∧
    (placeOrder env restaurantId tableId cartItems (JSNum.num t)).cartCleared = true ∧
    orderItemOf env.newOrderId item
        ∈ (placeOrder env restaurantId tableId cartItems (JSNum.num t)).itemsInserted ∧
    (orderItemOf env.newOrderId item).price = 0 ∧
    ∀ o ∈ (placeOrder env restaurantId tableId cartItems (JSNum.num t)).ordersInserted,
      o.total_amount = t := by
  have hne : cartItems ≠ [] := List.ne_nil_of_mem hmem
  rw [placeOrder_success_eq env restaurantId tableId cartItems t hne hrid hpos hoe hid hie]
  refine ⟨rfl, rfl, List.mem_map_of_mem _ hmem, ?_, ?_⟩
  · simp [orderItemOf, orderItemPrice, hnan]
  · intro o ho
    simp only [List.mem_singleton] at ho
    subst ho
    rfl

/-- Witness for C10: a cart whose only line has a `NaN` effective price
while the external total is `5`; the order is placed with line price `0`
and `total_amount = 5`, so the per-item sum `0` differs from the total. -/
theorem placeOrder_nan_price_inserts_zero_witness :
    (placeOrder ⟨"devB", "orderB", false, false⟩ "restB" none
        [⟨"i9", "Mystery", 1, JSNum.nan, none⟩] (JSNum.num 5)).cartCleared = true ∧
    itemsSum ((placeOrder ⟨"devB", "orderB", false, false⟩ "restB" none
        [⟨"i9", "Mystery", 1, JSNum.nan, none⟩] (JSNum.num 5)).itemsInserted) ≠ 5 := by
  have h := placeOrder_nan_price_inserts_zero ⟨"devB", "orderB", false, false⟩ "restB" none
    [⟨"i9", "Mystery", 1, JSNum.nan, none⟩] ⟨"i9", "Mystery", 1, JSNum.nan, none⟩
    5 (by decide) rfl (by decide) (by norm_num) rfl (by decide) rfl
  refine ⟨h.2.1, ?_⟩
  rw [placeOrder_success_eq _ _ _ _ _ (by decide) (by decide) (by norm_num) rfl (by decide) rfl]
  norm_num [itemsSum, orderItemOf, orderItemPrice, effectivePrice]

end WebFixer

namespace WebFixer

/-- Every `orders` row that any `placeOrder` call inserts has status
`'placed'`, the ambient device id, and a `table_id` given by the guard
on the optional table id. -/
theorem placeOrder_ordersInserted_shape (env : PlaceOrderEnv) (restaurantId : String)
    (tableId : Option String) (cartItems : List CartItem) (cartTotal : JSNum) :
    ∀ o ∈ (placeOrder env restaurantId tableId cartItems cartTotal).ordersInserted,
      o.device_id = env.deviceId ∧ o.status = "placed" ∧
      o.table_id = (if tableIdAccepted tableId then tableId else none) := by
  intro o ho
  unfold placeOrder at ho
  repeat' split at ho
  all_goals simp_all

/-- C9 counterexample: a table id consisting of one space is non-empty
and differs from the strings `'undefined'` and `'null'`, yet the order
`placeOrder` inserts for it carries no table identifier (`table_id`
stays unset), because the code's guard also requires
`tableId.trim() !== ''`. -/
theorem placeOrder_blank_table_id_counterexample :
    (" " ≠ "" ∧ " " ≠ "undefined" ∧ " " ≠ "null") ∧
    (placeOrder ⟨"devC", "orderC", false, false⟩ "restC" (some (" "))
        [⟨"i1", "Tea", 1, JSNum.num 5, none⟩] (JSNum.num 5)).ordersInserted =
      [{ id := "orderC", restaurant_id := "restC", total_amount := 5, status := "placed",
         device_id := "devC", table_id := none }] := by
  refine ⟨by decide, ?_⟩
  rw [placeOrder_success_eq _ _ _ _ _ (by decide) (by decide) (by norm_num) rfl (by decide) rfl]
  have hg : tableIdAccepted (some (" ")) = false := by decide
  rw [hg]
  simp

/-- C9 (amended): every order inserted by `placeOrder` carries the
ambient device identifier (nonempty whenever the ambient device id is),
and an order placed with a non-blank (nonempty after trimming
whitespace), non-`'undefined'`, non-`'null'` table id carries that table
identifier as well. -/
theorem placeOrder_device_and_table_ids (env : PlaceOrderEnv) (restaurantId : String)
    (tableId : Option String) (cartItems : List CartItem) (cartTotal : JSNum)
    (o : OrderRow)
    (ho : o ∈ (placeOrder env restaurantId tableId cartItems cartTotal).ordersInserted) :
    o.device_id = env.deviceId ∧
    (env.deviceId ≠ "" → o.device_id ≠ "") ∧
    ∀ s, tableId = some s → jsTrim s ≠ "" → s ≠ "undefined" → s ≠ "null" →
      o.table_id = some s := by
  obtain ⟨hdev, _, htid⟩ :=
    placeOrder_ordersInserted_shape env restaurantId tableId cartItems cartTotal o ho
  refine ⟨hdev, fun h => hdev ▸ h, ?_⟩
  intro s hs h1 h2 h3
  have h0 : s ≠ "" := by
    intro h
    rw [h] at h1
    exact h1 rfl
  have hacc : tableIdAccepted tableId = true := by
    rw [hs]
    simp [tableIdAccepted, h0, h1, h2, h3]
  rw [htid, if_pos hacc, hs]

/-- Witness for C9's amended theorem at a concrete table-scoped order. -/
theorem placeOrder_device_and_table_ids_witness :
    ∃ o ∈ (placeOrder ⟨"devD", "orderD", false, false⟩ "restD" (some ("7"))
        [⟨"i1", "Tea", 1, JSNum.num 5, none⟩] (JSNum.num 5)).ordersInserted,
      o.device_id = "devD" ∧ o.table_id = some ("7") := by
  have hrun := placeOrder_success_eq ⟨"devD", "orderD", false, false⟩ "restD" (some ("7"))
    [⟨"i1", "Tea", 1, JSNum.num 5, none⟩] 5 (by decide) (by decide) (by norm_num) rfl
    (by decide) rfl
  have hmem : ({ id := "orderD", restaurant_id := "restD", total_amount := 5,
                 status := "placed", device_id := "devD",
                 table_id := if tableIdAccepted (some ("7")) then some ("7") else none } :
        OrderRow)
      ∈ (placeOrder ⟨"devD", "orderD", false, false⟩ "restD" (some ("7"))
        [⟨"i1", "Tea", 1, JSNum.num 5, none⟩] (JSNum.num 5)).ordersInserted := by
    rw [hrun]
    exact List.mem_singleton.mpr rfl
  have h := placeOrder_device_and_table_ids ⟨"devD", "orderD", false, false⟩ "restD"
    (some ("7")) [⟨"i1", "Tea", 1, JSNum.num 5, none⟩] (JSNum.num 5) _ hmem
  exact ⟨_, hmem, h.1, h.2.2 ("7") rfl (by decide) (by decide) (by decide)⟩

end WebFixer

namespace WebFixer

/-- C3: every status update the dashboard UI can issue moves an order one
step forward along `placed → preparing → ready → completed`: the button
shown for an order's current status targets exactly the next status in
the progression (so its rank strictly increases and no action targets an
earlier status), `updateOrderStatus` writes that status to the rows with
the order's id, and leaves every other order row unchanged. -/
theorem dashboard_status_only_advances (db : List OrderRow) (o : OrderRow) (s : String)
    (ho : o ∈ db) (hs : dashboardNextStatus o.status = some s) :
    statusRank s = statusRank o.status + 1 ∧
    statusRank o.status < statusRank s ∧
    ∀ o2 ∈ updateOrderStatus db o.id s,
      (o2.id = o.id → o2.status = s) ∧ (o2.id ≠ o.id → o2 ∈ db) := by
  have hranks : statusRank s = statusRank o.status + 1 := by
    unfold dashboardNextStatus at hs
    split_ifs at hs with h1 h2 h3
    all_goals simp only [Option.some.injEq] at hs
    all_goals subst hs
    all_goals simp [statusRank, h1]
    · simp [h1, h2]
    · simp [h1, h2, h3]
  refine ⟨hranks, by omega, ?_⟩
  intro o2 ho2
  unfold updateOrderStatus at ho2
  obtain ⟨a, ha, hao2⟩ := List.mem_map.mp ho2
  by_cases hid : a.id = o.id
  · rw [if_pos hid] at hao2
    constructor
    · intro _
      rw [← hao2]
    · intro hne
      exact absurd (by rw [← hao2]; exact hid) hne
  · rw [if_neg hid] at hao2
    constructor
    · intro heq
      exact absurd (hao2 ▸ heq) hid
    · intro _
      exact hao2 ▸ ha

/-- Witness for C3: advancing a concrete `placed` order to `preparing`. -/
theorem dashboard_status_only_advances_witness :
    statusRank ("preparing") =
      statusRank (OrderRow.mk ("o1") ("r1") (5 : ℚ) ("placed") ("d1") none).status + 1 := by
  have h := dashboard_status_only_advances
    [OrderRow.mk ("o1") ("r1") (5 : ℚ) ("placed") ("d1") none]
    (OrderRow.mk ("o1") ("r1") (5 : ℚ) ("placed") ("d1") none)
    "preparing" (List.mem_singleton.mpr rfl) (by decide)
  exact h.1

/-- C6: deleting all orders for a table removes exactly the order rows
whose `table_id` equals that table, and keeps every order whose
`table_id` differs from it or is absent. -/
theorem deleteTableOrders_removes_exactly_table (db : List OrderRow) (tableId : String)
    (o : OrderRow) :
    o ∈ deleteTableOrders db tableId ↔ o ∈ db ∧ o.table_id ≠ some tableId := by
  simp [deleteTableOrders]

end WebFixer

namespace WebFixer

/-! ### Schema-drift recovery (`setupDatabase.ts`) -/

/-- Whether a character list occurs as a contiguous substring. -/
def hasSubstr (pat : List Char) : List Char → Bool
  | [] => pat.isEmpty
  | c :: rest => pat.isPrefixOf (c :: rest) || hasSubstr pat rest

/-- The error-message test of `handleRelationDoesNotExistError`:
`error?.message?.includes("relation") && error?.message?.includes("does not exist")`. -/
def isRelationNotExistMsg (msg : String) : Bool :=
  hasSubstr ("relation".data) msg.data && hasSubstr ("does not exist".data) msg.data

/-- `handleRelationDoesNotExistError` from `src/lib/setupDatabase.ts`,
lines 216-222: when the message matches `relation ... does not exist`,
run `setupDatabase` (abstracted as the schema-mutating action `setup`
returning the new backend state and its success flag), otherwise leave
the state alone and report `false`. -/
def handleRelationDoesNotExistError {σ : Type} (setup : σ → σ × Bool) (errMsg : String)
    (st : σ) : σ × Bool :=
  if isRelationNotExistMsg errMsg then setup st else (st, false)

/-- The recover-and-retry skeleton of `getRestaurantById` /
`saveRestaurantMenu` (and the other callers of the helper): run the
operation; on failure invoke the recovery helper, and when it reports
success make the whole recursive call again (the TypeScript recursion is
unbounded, so the embedding carries explicit fuel).  Returns how often
the operation was invoked together with the final outcome. -/
def opWithRecovery {σ : Type} (setup : σ → σ × Bool) (op : σ → Except String σ) :
    ℕ → σ → ℕ × Except String σ
  | 0, _ => (0, Except.error ("recursion fuel exhausted"))
  | fuel + 1, st =>
    match op st with
    | Except.ok st2 => (1, Except.ok st2)
    | Except.error e =>
      let h := handleRelationDoesNotExistError setup e st
      if h.2 then
        let r := opWithRecovery setup op fuel h.1
        (r.1 + 1, r.2)
      else (1, Except.error e)

/-- C5 counterexample: the retry is a full recursive call, not a single
re-invocation.  When the operation keeps failing with a matching message
on a relation the setup routine does not create (here
`menu_item_variants`, which `setupDatabase` never creates) while the
setup keeps reporting success, the operation is invoked three times
within fuel `3` — contradicting "re-invoked exactly once". -/
theorem opWithRecovery_retries_more_than_once :
    (opWithRecovery (σ := Unit) (fun s => (s, true))
        (fun _ => Except.error ("relation \"menu_item_variants\" does not exist"))
        3 ()).1 = 3 := by
  decide

/-- C5 (amended): each failing invocation triggers at most one
recovery-and-retry: when the recovery helper declines (no matching
message, or the setup reports failure) the error propagates with no
retry at all, and when the recovery succeeds and actually repairs the
failure the operation is re-invoked exactly once.  (If the reported
repair does not eliminate the error, the recursive call retries again —
see the counterexample.) -/
theorem opWithRecovery_single_retry {σ : Type} (setup : σ → σ × Bool)
    (op : σ → Except String σ) (st : σ) (fuel : ℕ) (hfuel : 2 ≤ fuel)
    (e : String) (hop : op st = Except.error e) :
    ((handleRelationDoesNotExistError setup e st).2 = false →
      opWithRecovery setup op fuel st = (1, Except.error e)) ∧
    (∀ st2, handleRelationDoesNotExistError setup e st = (st2, true) →
      ∀ st3, op st2 = Except.ok st3 →
        opWithRecovery setup op fuel st = (2, Except.ok st3)) := by
  obtain ⟨n, rfl⟩ : ∃ n, fuel = n + 2 := ⟨fuel - 2, by omega⟩
  constructor
  · intro hfail
    show opWithRecovery setup op (n + 1 + 1) st = (1, Except.error e)
    unfold opWithRecovery
    rw [hop]
    simp [hfail]
  · intro st2 hsetup st3 hok
    show opWithRecovery setup op (n + 1 + 1) st = (2, Except.ok st3)
    unfold opWithRecovery
    rw [hop]
    simp only [hsetup]
    have hinner : opWithRecovery setup op (n + 1) st2 = (1, Except.ok st3) := by
      unfold opWithRecovery
      rw [hok]
    simp [hinner]

/-- Witness for C5's amended theorem: a concrete operation that fails
once with a matching message, is repaired by the setup action, and
succeeds on the single retry. -/
theorem opWithRecovery_single_retry_witness :
    opWithRecovery (σ := ℕ) (fun _ => (1, true))
        (fun s => if s = 0 then Except.error ("relation \"orders\" does not exist")
                  else Except.ok s) 2 0 = (2, Except.ok 1) := by
  have h := opWithRecovery_single_retry (σ := ℕ) (fun _ => (1, true))
    (fun s => if s = 0 then Except.error ("relation \"orders\" does not exist")
              else Except.ok s) 0 2 (by norm_num)
    ("relation \"orders\" does not exist") rfl
  exact h.2 1 rfl 1 rfl

end WebFixer

namespace WebFixer

/-! ### Post-checkout cleanup (`ThankYou`) and device identity -/

/-- The browser-local persistent state: the `deviceId` entry of
`localStorage`. -/
structure BrowserState where
  deviceIdStored : Option String
  deriving DecidableEq

/-- Modelled from the spec: `utils/deviceId` (`getDeviceId`) is not
among the provided sources; the spec describes the device identity as an
opaque random token persisted in the browser, so `getDeviceId` returns
the stored token when present and otherwise stores and returns the
freshly generated token. -/
def getDeviceId (st : BrowserState) (freshToken : String) : String × BrowserState :=
  match st.deviceIdStored with
  | some d => (d, st)
  | none => (freshToken, ⟨some freshToken⟩)

/-- The `cleanupEverything` effect of `src/pages/ThankYou.tsx`
(lines 14-46): clear the cart, delete every `orders` row carrying the
current device id (guarded by `if (currentDeviceId)`), and remove the
stored device id. -/
def thankYouCleanup (st : BrowserState) (freshToken : String) (db : List OrderRow)
    (cart : List CartItem) : BrowserState × List OrderRow × List CartItem :=
  let cartAfter : List CartItem := []
  let current := (getDeviceId st freshToken).1
  let dbAfter :=
    if current ≠ "" then db.filter (fun o => decide (o.device_id ≠ current)) else db
  (⟨none⟩, dbAfter, cartAfter)

/-- The device-scoped order list of `fetchOrders`
(`.eq('device_id', deviceId)`): the "my orders" view. -/
def myOrders (db : List OrderRow) (deviceId : String) : List OrderRow :=
  db.filter (fun o => decide (o.device_id = deviceId))

/-- C8: after the thank-you screen's cleanup, the stored device
identifier is removed and every order row carrying the current device
identifier is deleted (all other orders kept); a subsequent visit with a
fresh random token — one not already used as some surviving order's
device id — is a new anonymous device whose "my orders" list is empty. -/
theorem thankYouCleanup_resets_device (st : BrowserState) (freshToken : String)
    (db : List OrderRow) (cart : List CartItem)
    (hdev : (getDeviceId st freshToken).1 ≠ "") :
    (thankYouCleanup st freshToken db cart).1.deviceIdStored = none ∧
    (thankYouCleanup st freshToken db cart).2.2 = [] ∧
    (∀ o ∈ (thankYouCleanup st freshToken db cart).2.1,
      o.device_id ≠ (getDeviceId st freshToken).1) ∧
    (∀ o ∈ db, o.device_id ≠ (getDeviceId st freshToken).1 →
      o ∈ (thankYouCleanup st freshToken db cart).2.1) ∧
    ∀ fresh2, fresh2 ∉ ((thankYouCleanup st freshToken db cart).2.1).map
        (fun o => o.device_id) →
      (getDeviceId (thankYouCleanup st freshToken db cart).1 fresh2).1 = fresh2 ∧
      myOrders (thankYouCleanup st freshToken db cart).2.1 fresh2 = [] := by
  refine ⟨rfl, rfl, ?_, ?_, ?_⟩
  · intro o ho
    simp only [thankYouCleanup, if_pos hdev, List.mem_filter, decide_eq_true_eq] at ho
    exact ho.2
  · intro o ho hne
    simp only [thankYouCleanup, if_pos hdev, List.mem_filter, decide_eq_true_eq]
    exact ⟨ho, hne⟩
  · intro fresh2 hfresh
    refine ⟨rfl, ?_⟩
    unfold myOrders
    rw [List.filter_eq_nil_iff]
    intro o ho
    simp only [decide_eq_true_eq]
    intro heq
    exact hfresh (heq ▸ List.mem_map_of_mem (fun o => o.device_id) ho)

/-- Witness for C8 at a concrete state: stored token `tok`, one order of
this device and one of another device. -/
theorem thankYouCleanup_resets_device_witness :
    (thankYouCleanup ⟨some ("tok")⟩ "" [OrderRow.mk ("o1") ("r1") 5 ("placed") ("tok") none,
        OrderRow.mk ("o2") ("r1") 7 ("placed") ("other") none] []).1.deviceIdStored = none ∧
    myOrders (thankYouCleanup ⟨some ("tok")⟩ "" [OrderRow.mk ("o1") ("r1") 5 ("placed") ("tok") none,
        OrderRow.mk ("o2") ("r1") 7 ("placed") ("other") none] []).2.1 ("fresh") = [] := by
  have h := thankYouCleanup_resets_device ⟨some ("tok")⟩ ""
    [OrderRow.mk ("o1") ("r1") 5 ("placed") ("tok") none,
     OrderRow.mk ("o2") ("r1") 7 ("placed") ("other") none] [] (by decide)
  refine ⟨h.1, ?_⟩
  exact (h.2.2.2.2 ("fresh") (by decide)).2

end WebFixer

namespace WebFixer

/-! ### Tables and the QR-dialog resize control (`TableQRDialog.tsx`) -/

/-- A row of the `tables` table. -/
structure TableRow where
  id : String
  restaurant_id : String
  table_number : ℕ
  deriving DecidableEq

/-- A row of the `restaurants` table (only the field the dialog touches). -/
structure RestaurantRow where
  id : String
  table_count : ℕ
  deriving DecidableEq

/-- Backend state seen by the table-QR dialog. -/
@[ext]
structure TablesState where
  restaurants : List RestaurantRow
  tables : List TableRow
  deriving DecidableEq

/-- Ascending order on table rows by `table_number`
(the query's `order('table_number', { ascending: true })`). -/
def tableAsc (a b : TableRow) : Prop := a.table_number ≤ b.table_number

/-- Descending order on table rows by `table_number`
(the `sort((a, b) => b.table_number - a.table_number)`). -/
def tableDesc (a b : TableRow) : Prop := b.table_number ≤ a.table_number

instance : DecidableRel tableAsc :=
  fun a b => inferInstanceAs (Decidable (a.table_number ≤ b.table_number))

instance : DecidableRel tableDesc :=
  fun a b => inferInstanceAs (Decidable (b.table_number ≤ a.table_number))

instance : IsTotal TableRow tableAsc := ⟨fun a b => Nat.le_total a.table_number b.table_number⟩

instance : IsTotal TableRow tableDesc := ⟨fun a b => Nat.le_total b.table_number a.table_number⟩

instance : IsTrans TableRow tableAsc := ⟨fun _ _ _ h1 h2 => Nat.le_trans h1 h2⟩

instance : IsTrans TableRow tableDesc := ⟨fun _ _ _ h1 h2 => Nat.le_trans h2 h1⟩

/-- The rows of one restaurant. -/
def tablesOf (restaurantId : String) (tables : List TableRow) : List TableRow :=
  tables.filter (fun t => decide (t.restaurant_id = restaurantId))

/-- The restaurant's existing table rows as the dialog fetches them:
filtered by restaurant and ordered by `table_number` ascending. -/
def existingSorted (restaurantId : String) (tables : List TableRow) : List TableRow :=
  List.insertionSort tableAsc (tablesOf restaurantId tables)

/-- The `existingTableNumbers` array of `updateTables`. -/
def existingNumbers (restaurantId : String) (tables : List TableRow) : List ℕ :=
  (existingSorted restaurantId tables).map (fun t => t.table_number)

/-- The `count > existingTableNumbers.length` branch of `updateTables`:
append `count - existing` fresh rows numbered from
`Math.max(...existingTableNumbers) + 1` (from `1` when none exist);
`gen` supplies the fresh ids and the final `upsert` of rows with fresh
primary keys is an insert. -/
def growTables (gen : ℕ → String) (restaurantId : String) (count : ℕ)
    (tables : List TableRow) : List TableRow :=
  let nums := existingNumbers restaurantId tables
  let startingNumber := if 0 < nums.length then nums.foldr Nat.max 0 + 1 else 1
  tables ++ (List.range (count - nums.length)).map
    (fun i => TableRow.mk (gen i) restaurantId (startingNumber + i))

/-- The `count < existingTableNumbers.length` branch of `updateTables`:
sort the existing rows by `table_number` descending, take the
`existing - count` first (highest-numbered) ones and delete them by id. -/
def shrinkTables (restaurantId : String) (count : ℕ)
    (tables : List TableRow) : List TableRow :=
  let sortedDesc := List.insertionSort tableDesc (existingSorted restaurantId tables)
  let tableIdsToRemove :=
    (sortedDesc.take ((existingNumbers restaurantId tables).length - count)).map
      (fun t => t.id)
  tables.filter (fun t => decide (t.id ∉ tableIdsToRemove))

/-- `updateTables` from `src/components/menu/TableQRDialog.tsx`,
lines 117-210: write the desired count to the restaurant row, fetch the
restaurant's existing rows ordered by `table_number`, then reconcile:
insert missing rows when growing, delete the highest-numbered excess
rows when shrinking, nothing when the count already matches. -/
def updateTables (gen : ℕ → String) (restaurantId : String) (count : ℕ)
    (st : TablesState) : TablesState :=
  let restaurants2 := st.restaurants.map
    (fun r => if r.id = restaurantId then { r with table_count := count } else r)
  let tables2 :=
    if (existingNumbers restaurantId st.tables).length < count then
      growTables gen restaurantId count st.tables
    else if count < (existingNumbers restaurantId st.tables).length then
      shrinkTables restaurantId count st.tables
    else st.tables
  ⟨restaurants2, tables2⟩

/-- `initializeTables` from the same dialog: insert rows numbered
`1 .. count` for the restaurant. -/
def initializeTables (gen : ℕ → String) (restaurantId : String) (count : ℕ)
    (st : TablesState) : TablesState :=
  { st with
    tables := st.tables ++ (List.range count).map
      (fun i => TableRow.mk (gen i) restaurantId (i + 1)) }

theorem foldr_max_le (l : List ℕ) (m : ℕ) (hub : ∀ x ∈ l, x ≤ m) :
    l.foldr Nat.max 0 ≤ m := by
  induction l with
  | nil => exact Nat.zero_le m
  | cons a l ih =>
    simp only [List.foldr_cons]
    exact Nat.max_le.mpr ⟨hub a (List.mem_cons_self a l), ih (fun x hx => hub x (List.mem_cons_of_mem a hx))⟩

theorem le_foldr_max (l : List ℕ) (m : ℕ) (hmem : m ∈ l) : m ≤ l.foldr Nat.max 0 := by
  induction l with
  | nil => exact absurd hmem (List.not_mem_nil m)
  | cons a l ih =>
    simp only [List.foldr_cons]
    rcases List.mem_cons.mp hmem with h | h
    · rw [h]
      exact Nat.le_max_left a _
    · exact Nat.le_trans (ih h) (Nat.le_max_right a _)

theorem foldr_max_eq (l : List ℕ) (m : ℕ) (hmem : m ∈ l) (hub : ∀ x ∈ l, x ≤ m) :
    l.foldr Nat.max 0 = m :=
  Nat.le_antisymm (foldr_max_le l m hub) (le_foldr_max l m hmem)

theorem map_filter_comp {α β : Type} (f : α → β) (p : β → Bool) (l : List α) :
    (l.filter (fun x => p (f x))).map f = (l.map f).filter p := by
  induction l with
  | nil => rfl
  | cons a l ih => by_cases h : p (f a) <;> simp [List.filter_cons, h, ih]

end WebFixer

namespace WebFixer

theorem existingSorted_perm (restaurantId : String) (tables : List TableRow) :
    (existingSorted restaurantId tables).Perm (tablesOf restaurantId tables) :=
  List.perm_insertionSort tableAsc (tablesOf restaurantId tables)

theorem existingNumbers_perm (restaurantId : String) (tables : List TableRow) (k : ℕ)
    (hnums : ((tablesOf restaurantId tables).map (fun t => t.table_number)).Perm
      (List.range' 1 k)) :
    (existingNumbers restaurantId tables).Perm (List.range' 1 k) := by
  unfold existingNumbers
  exact ((existingSorted_perm restaurantId tables).map (fun t => t.table_number)).trans hnums

theorem existingNumbers_length (restaurantId : String) (tables : List TableRow) (k : ℕ)
    (hnums : ((tablesOf restaurantId tables).map (fun t => t.table_number)).Perm
      (List.range' 1 k)) :
    (existingNumbers restaurantId tables).length = k := by
  rw [(existingNumbers_perm restaurantId tables k hnums).length_eq, List.length_range']

theorem growTables_eq (gen : ℕ → String) (restaurantId : String) (N k : ℕ)
    (tables : List TableRow)
    (hnums : ((tablesOf restaurantId tables).map (fun t => t.table_number)).Perm
      (List.range' 1 k)) :
    growTables gen restaurantId N tables =
      tables ++ (List.range (N - k)).map
        (fun i => TableRow.mk (gen i) restaurantId (k + 1 + i)) := by
  have hperm := existingNumbers_perm restaurantId tables k hnums
  have hlen := existingNumbers_length restaurantId tables k hnums
  have hstart :
      (if 0 < (existingNumbers restaurantId tables).length then
        (existingNumbers restaurantId tables).foldr Nat.max 0 + 1 else 1) = k + 1 := by
    rcases Nat.eq_zero_or_pos k with hk | hk
    · rw [hlen, hk]
      simp
    · rw [if_pos (by rw [hlen]; exact hk)]
      congr 1
      apply foldr_max_eq
      · exact hperm.mem_iff.mpr (List.mem_range'.mpr ⟨k - 1, by omega, by omega⟩)
      · intro x hx
        obtain ⟨i, hi, he⟩ := List.mem_range'.mp (hperm.subset hx)
        omega
  simp only [growTables]
  rw [hstart, hlen]

end WebFixer

namespace WebFixer

/-- The descending sort of the restaurant's rows lists exactly the
numbers `k, k-1, ..., 1` when the rows are numbered `1..k`. -/
theorem sortedDesc_map_eq (restaurantId : String) (tables : List TableRow) (k : ℕ)
    (hnums : ((tablesOf restaurantId tables).map (fun t => t.table_number)).Perm
      (List.range' 1 k)) :
    (List.insertionSort tableDesc (existingSorted restaurantId tables)).map
        (fun t => t.table_number) = (List.range' 1 k).reverse := by
  have hperm : (List.insertionSort tableDesc (existingSorted restaurantId tables)).Perm
      (tablesOf restaurantId tables) :=
    (List.perm_insertionSort tableDesc _).trans (existingSorted_perm restaurantId tables)
  have hpermnums : ((List.insertionSort tableDesc (existingSorted restaurantId tables)).map
      (fun t => t.table_number)).Perm (List.range' 1 k) :=
    (hperm.map (fun t => t.table_number)).trans hnums
  have hsorted : List.Pairwise (fun a b : ℕ => b ≤ a)
      ((List.insertionSort tableDesc (existingSorted restaurantId tables)).map
        (fun t => t.table_number)) :=
    List.Pairwise.map (R := tableDesc) (S := fun a b : ℕ => b ≤ a)
      (fun t : TableRow => t.table_number) (fun _ _ h => h)
      (List.sorted_insertionSort tableDesc (existingSorted restaurantId tables))
  have hrev : List.Pairwise (fun a b : ℕ => b ≤ a) (List.range' 1 k).reverse := by
    rw [List.pairwise_reverse]
    exact (List.pairwise_lt_range' 1 k).imp (fun h => Nat.le_of_lt h)
  haveI : IsAntisymm ℕ (fun a b : ℕ => b ≤ a) := ⟨fun a b h1 h2 => Nat.le_antisymm h2 h1⟩
  exact List.eq_of_perm_of_sorted
    (hpermnums.trans (List.reverse_perm (List.range' 1 k)).symm) hsorted hrev

/-- Splitting `1..k` reversed at the rows above `N`. -/
theorem range'_reverse_split (N k : ℕ) (hNk : N ≤ k) :
    (List.range' 1 k).reverse =
      (List.range' (N + 1) (k - N)).reverse ++ (List.range' 1 N).reverse := by
  rw [← List.reverse_append]
  congr 1
  have h := List.range'_append 1 N (k - N) 1
  simp only [Nat.one_mul] at h
  rw [Nat.add_comm 1 N] at h
  rw [h]
  congr 1
  omega

theorem shrinkTables_eq (restaurantId : String) (N k : ℕ) (tables : List TableRow)
    (hNk : N < k)
    (hids : (tables.map (fun t => t.id)).Nodup)
    (hnums : ((tablesOf restaurantId tables).map (fun t => t.table_number)).Perm
      (List.range' 1 k)) :
    shrinkTables restaurantId N tables =
      tables.filter
        (fun t => decide (¬(t.restaurant_id = restaurantId ∧ N < t.table_number))) := by
  have hdesceq := sortedDesc_map_eq restaurantId tables k hnums
  have hsplit := range'_reverse_split N k (Nat.le_of_lt hNk)
  have hlen1 : ((List.range' (N + 1) (k - N)).reverse).length = k - N := by
    simp [List.length_range']
  have hpermdsc : (List.insertionSort tableDesc (existingSorted restaurantId tables)).Perm
      (tablesOf restaurantId tables) :=
    (List.perm_insertionSort tableDesc _).trans (existingSorted_perm restaurantId tables)
  have htake : ((List.insertionSort tableDesc (existingSorted restaurantId tables)).take
      (k - N)).map (fun t => t.table_number) = (List.range' (N + 1) (k - N)).reverse := by
    rw [List.map_take, hdesceq, hsplit]
    have h := List.take_left ((List.range' (N + 1) (k - N)).reverse) ((List.range' 1 N).reverse)
    rw [hlen1] at h
    exact h
  have hdrop : ((List.insertionSort tableDesc (existingSorted restaurantId tables)).drop
      (k - N)).map (fun t => t.table_number) = (List.range' 1 N).reverse := by
    rw [List.map_drop, hdesceq, hsplit]
    have h := List.drop_left ((List.range' (N + 1) (k - N)).reverse) ((List.range' 1 N).reverse)
    rw [hlen1] at h
    exact h
  have hmemtake : ∀ x ∈ (List.insertionSort tableDesc
      (existingSorted restaurantId tables)).take (k - N),
      N < x.table_number ∧ x.restaurant_id = restaurantId ∧ x ∈ tables := by
    intro x hx
    have hxnum : x.table_number ∈ (List.range' (N + 1) (k - N)).reverse :=
      htake ▸ List.mem_map_of_mem (fun t => t.table_number) hx
    have hxflt : x ∈ tablesOf restaurantId tables :=
      hpermdsc.subset (List.take_subset (k - N) _ hx)
    rw [List.mem_reverse] at hxnum
    obtain ⟨i, hi, he⟩ := List.mem_range'.mp hxnum
    simp only [tablesOf, List.mem_filter, decide_eq_true_eq] at hxflt
    exact ⟨by omega, hxflt.2, hxflt.1⟩
  have hcrit : ∀ t ∈ tables,
      (t.id ∈ ((List.insertionSort tableDesc (existingSorted restaurantId tables)).take
        (k - N)).map (fun t => t.id)
      ↔ (t.restaurant_id = restaurantId ∧ N < t.table_number)) := by
    intro t ht
    constructor
    · intro hid
      obtain ⟨x, hx, hxid⟩ := List.mem_map.mp hid
      obtain ⟨hxn, hxr, hxmem⟩ := hmemtake x hx
      have hxt : x = t := List.inj_on_of_nodup_map hids hxmem ht hxid
      subst hxt
      exact ⟨hxr, hxn⟩
    · rintro ⟨htr, htn⟩
      have htflt : t ∈ tablesOf restaurantId tables := by
        simp [tablesOf, List.mem_filter, ht, htr]
      have htdsc : t ∈ List.insertionSort tableDesc (existingSorted restaurantId tables) :=
        hpermdsc.mem_iff.mpr htflt
      rw [← List.take_append_drop (k - N)
        (List.insertionSort tableDesc (existingSorted restaurantId tables)),
        List.mem_append] at htdsc
      rcases htdsc with h | h
      · exact List.mem_map_of_mem (fun t => t.id) h
      · exfalso
        have : t.table_number ∈ (List.range' 1 N).reverse :=
          hdrop ▸ List.mem_map_of_mem (fun t => t.table_number) h
        rw [List.mem_reverse] at this
        obtain ⟨i, hi, he⟩ := List.mem_range'.mp this
        omega
  have hlen : (existingNumbers restaurantId tables).length = k :=
    existingNumbers_length restaurantId tables k hnums
  simp only [shrinkTables]
  rw [hlen]
  apply List.filter_congr
  intro t ht
  rw [decide_eq_decide]
  rw [hcrit t ht]

end WebFixer

namespace WebFixer

theorem updateTables_restaurants (gen : ℕ → String) (restaurantId : String) (count : ℕ)
    (st : TablesState) :
    (updateTables gen restaurantId count st).restaurants =
      st.restaurants.map
        (fun r => if r.id = restaurantId then { r with table_count := count } else r) := rfl

theorem updateTables_tables (gen : ℕ → String) (restaurantId : String) (count k : ℕ)
    (st : TablesState)
    (hnums : ((tablesOf restaurantId st.tables).map (fun t => t.table_number)).Perm
      (List.range' 1 k)) :
    (updateTables gen restaurantId count st).tables =
      if k < count then growTables gen restaurantId count st.tables
      else if count < k then shrinkTables restaurantId count st.tables
      else st.tables := by
  have hlen := existingNumbers_length restaurantId st.tables k hnums
  simp only [updateTables]
  rw [hlen]

theorem range'_filter_le (k N : ℕ) (hN : N ≤ k) :
    (List.range' 1 k).filter (fun n => decide (n ≤ N)) = List.range' 1 N := by
  have h := List.range'_append 1 N (k - N) 1
  simp only [Nat.one_mul] at h
  rw [Nat.add_comm 1 N] at h
  have hk : k - N + N = k := by omega
  rw [hk] at h
  rw [← h, List.filter_append]
  have h1 : (List.range' 1 N).filter (fun n => decide (n ≤ N)) = List.range' 1 N := by
    rw [List.filter_eq_self]
    intro a ha
    obtain ⟨i, hi, he⟩ := List.mem_range'.mp ha
    simp only [decide_eq_true_eq]
    omega
  have h2 : (List.range' (N + 1) (k - N)).filter (fun n => decide (n ≤ N)) = [] := by
    rw [List.filter_eq_nil_iff]
    intro a ha
    obtain ⟨i, hi, he⟩ := List.mem_range'.mp ha
    simp only [decide_eq_true_eq]
    omega
  rw [h1, h2, List.append_nil]

/-- The rows of other restaurants never pass the per-restaurant filter. -/
theorem tablesOf_append_new (restaurantId : String) (tables newTables : List TableRow)
    (hnew : ∀ t ∈ newTables, t.restaurant_id = restaurantId) :
    tablesOf restaurantId (tables ++ newTables) =
      tablesOf restaurantId tables ++ newTables := by
  unfold tablesOf
  rw [List.filter_append]
  congr 1
  rw [List.filter_eq_self]
  intro a ha
  simp [hnew a ha]

end WebFixer

namespace WebFixer

/-- After an `updateTables` resize to `N`, the restaurant's rows are
numbered by a permutation of `1..N` (assuming they were `1..k` before). -/
theorem updateTables_numbers_perm (gen : ℕ → String) (restaurantId : String) (N k : ℕ)
    (st : TablesState)
    (hids : (st.tables.map (fun t => t.id)).Nodup)
    (hnums : ((tablesOf restaurantId st.tables).map (fun t => t.table_number)).Perm
      (List.range' 1 k)) :
    ((tablesOf restaurantId (updateTables gen restaurantId N st).tables).map
      (fun t => t.table_number)).Perm (List.range' 1 N) := by
  rw [updateTables_tables gen restaurantId N k st hnums]
  rcases lt_trichotomy k N with h | h | h
  · rw [if_pos h, growTables_eq gen restaurantId N k st.tables hnums]
    rw [tablesOf_append_new restaurantId st.tables _ ?hnew]
    case hnew =>
      intro t ht
      obtain ⟨i, _, rfl⟩ := List.mem_map.mp ht
      rfl
    rw [List.map_append]
    have hnewnums : ((List.range (N - k)).map
        (fun i => TableRow.mk (gen i) restaurantId (k + 1 + i))).map
          (fun t => t.table_number) = List.range' (k + 1) (N - k) := by
      rw [List.map_map, List.range'_eq_map_range]
      rfl
    rw [hnewnums]
    have happ : List.range' 1 k ++ List.range' (k + 1) (N - k) = List.range' 1 N := by
      have h2 := List.range'_append 1 k (N - k) 1
      simp only [Nat.one_mul] at h2
      rw [Nat.add_comm 1 k] at h2
      rw [show N - k + k = N from by omega] at h2
      exact h2
    rw [← happ]
    exact hnums.append (List.Perm.refl _)
  · subst h
    rw [if_neg (lt_irrefl k), if_neg (lt_irrefl k)]
    exact hnums
  · rw [if_neg (by omega), if_pos h,
      shrinkTables_eq restaurantId N k st.tables h hids hnums]
    have hfe : tablesOf restaurantId (st.tables.filter
        (fun t => decide (¬(t.restaurant_id = restaurantId ∧ N < t.table_number)))) =
        (tablesOf restaurantId st.tables).filter
          (fun t => decide (t.table_number ≤ N)) := by
      unfold tablesOf
      rw [List.filter_filter, List.filter_filter]
      apply List.filter_congr
      intro a _
      by_cases hr : a.restaurant_id = restaurantId <;>
        by_cases hn : a.table_number ≤ N <;>
          simp [hr, hn]
    rw [hfe]
    rw [map_filter_comp (fun t : TableRow => t.table_number) (fun n => decide (n ≤ N))]
    have := hnums.filter (fun n => decide (n ≤ N))
    rw [range'_filter_le k N (Nat.le_of_lt h)] at this
    exact this

/-- An `updateTables` call whose count already matches the row count
only rewrites the restaurant's `table_count` field. -/
theorem updateTables_count_matches (gen : ℕ → String) (restaurantId : String) (N : ℕ)
    (st : TablesState)
    (hnums : ((tablesOf restaurantId st.tables).map (fun t => t.table_number)).Perm
      (List.range' 1 N)) :
    updateTables gen restaurantId N st =
      ⟨st.restaurants.map
        (fun r => if r.id = restaurantId then { r with table_count := N } else r),
       st.tables⟩ := by
  ext1
  · rw [updateTables_restaurants]
  · rw [updateTables_tables gen restaurantId N N st hnums,
      if_neg (lt_irrefl N), if_neg (lt_irrefl N)]

end WebFixer

namespace WebFixer

/-- C2: starting from a state whose rows for the restaurant are numbered
`1..k` (as every state the dialog itself produces is), resizing to any
`N ≥ 1` leaves exactly `N` rows for that restaurant, numbered `1..N`
with no duplicates; resizing again to the same `N` changes nothing;
when shrinking exactly the highest-numbered excess rows are deleted
(rows with numbers above `N`, everything else untouched); and when
growing exactly the missing numbers `k+1..N` are inserted. -/
theorem updateTables_resize_spec (gen : ℕ → String) (restaurantId : String) (N k : ℕ)
    (st : TablesState) (hN : 1 ≤ N)
    (hids : (st.tables.map (fun t => t.id)).Nodup)
    (hnums : ((tablesOf restaurantId st.tables).map (fun t => t.table_number)).Perm
      (List.range' 1 k)) :
    ((tablesOf restaurantId (updateTables gen restaurantId N st).tables).map
      (fun t => t.table_number)).Perm (List.range' 1 N) ∧
    (tablesOf restaurantId (updateTables gen restaurantId N st).tables).length = N ∧
    ((tablesOf restaurantId (updateTables gen restaurantId N st).tables).map
      (fun t => t.table_number)).Nodup ∧
    (∀ gen2, updateTables gen2 restaurantId N (updateTables gen restaurantId N st)
      = updateTables gen restaurantId N st) ∧
    (N ≤ k → ∀ t, t ∈ (updateTables gen restaurantId N st).tables ↔
      (t ∈ st.tables ∧ ¬(t.restaurant_id = restaurantId ∧ N < t.table_number))) ∧
    (k ≤ N → (updateTables gen restaurantId N st).tables =
      st.tables ++ (List.range (N - k)).map
        (fun i => TableRow.mk (gen i) restaurantId (k + 1 + i))) := by
  have hA := updateTables_numbers_perm gen restaurantId N k st hids hnums
  refine ⟨hA, ?_, ?_, ?_, ?_, ?_⟩
  · have := hA.length_eq
    rw [List.length_map, List.length_range'] at this
    exact this
  · exact hA.symm.nodup (List.nodup_range' 1 N)
  · intro gen2
    rw [updateTables_count_matches gen2 restaurantId N
      (updateTables gen restaurantId N st) hA]
    ext1
    · show ((updateTables gen restaurantId N st).restaurants).map _ = _
      rw [updateTables_restaurants, List.map_map]
      apply List.map_congr_left
      intro a _
      by_cases h : a.id = restaurantId <;> simp [h]
    · rfl
  · intro hNk t
    rw [updateTables_tables gen restaurantId N k st hnums]
    rcases Nat.lt_or_ge N k with h | h
    · rw [if_neg (by omega), if_pos h,
        shrinkTables_eq restaurantId N k st.tables h hids hnums]
      simp only [List.mem_filter, decide_eq_true_eq]
    · have hkN : k = N := by omega
      subst hkN
      rw [if_neg (lt_irrefl k), if_neg (lt_irrefl k)]
      constructor
      · intro ht
        refine ⟨ht, ?_⟩
        rintro ⟨hr, hn⟩
        have : t ∈ tablesOf restaurantId st.tables := by
          simp [tablesOf, List.mem_filter, ht, hr]
        have := hnums.subset (List.mem_map_of_mem (fun t => t.table_number) this)
        obtain ⟨i, hi, he⟩ := List.mem_range'.mp this
        omega
      · exact fun h => h.1
  · intro hkN
    rw [updateTables_tables gen restaurantId N k st hnums]
    rcases Nat.lt_or_ge k N with h | h
    · rw [if_pos h]
      exact growTables_eq gen restaurantId N k st.tables hnums
    · have hkN2 : k = N := by omega
      subst hkN2
      rw [if_neg (lt_irrefl k), if_neg (lt_irrefl k)]
      simp

/-- Witness for C2: resizing a restaurant with tables `1, 2` down to
`N = 1` keeps exactly table number `1`. -/
theorem updateTables_resize_spec_witness :
    ((tablesOf ("r1") (updateTables (fun i => String.append ("g") (Nat.repr i)) ("r1") 1
        ⟨[⟨"r1", 2⟩], [⟨"t1", "r1", 1⟩, ⟨"t2", "r1", 2⟩]⟩).tables).map
      (fun t => t.table_number)).Perm (List.range' 1 1) := by
  have h := updateTables_resize_spec (fun i => String.append ("g") (Nat.repr i)) ("r1") 1 2
    ⟨[⟨"r1", 2⟩], [⟨"t1", "r1", 1⟩, ⟨"t2", "r1", 2⟩]⟩
    (by norm_num) (by decide) (by decide)
  exact h.1

end WebFixer

namespace WebFixer

/-! ### Menu editor save (`menuService.saveRestaurantMenu`) -/

/-- A row of `menu_categories`. -/
structure CategoryRow where
  id : String
  restaurant_id : String
  name : String
  order : ℕ
  deriving DecidableEq

/-- A row of `menu_items` (the fields the claims are about; the
remaining scalar columns ride along unchanged by the same upsert). -/
structure ItemRow where
  id : String
  category_id : String
  name : String
  description : String
  price : String
  order : ℕ
  deriving DecidableEq

/-- A row of `menu_item_variants`. -/
structure VariantRow where
  id : String
  menu_item_id : String
  name : String
  price : String
  order : ℕ
  deriving DecidableEq

/-- The in-memory editor structures (`MenuItemVariantUI` etc. of
`menuService.ts`). -/
structure MenuItemVariantUI where
  id : String
  name : String
  price : String
  deriving DecidableEq

structure MenuItemUI where
  id : String
  name : String
  description : String
  price : String
  variants : List MenuItemVariantUI
  deriving DecidableEq

structure MenuCategoryUI where
  id : String
  name : String
  items : List MenuItemUI
  deriving DecidableEq

/-- The remote menu state: the three tables the save reconciles. -/
structure MenuDB where
  categories : List CategoryRow
  items : List ItemRow
  variants : List VariantRow
  deriving DecidableEq

/-- A supabase `upsert` keyed by primary key: replace the row with the
same key, or append the new row. -/
def upsertBy {β : Type} (key : β → String) (row : β) (l : List β) : List β :=
  if l.any (fun x => decide (key x = key row)) then
    l.map (fun x => if key x = key row then row else x)
  else l ++ [row]

/-- Deleting categories: the backend's `ON DELETE CASCADE` configuration
(assumed by the spec for cross-entity integrity) removes their items and
those items' variants. -/
def deleteCategoriesCascade (ids : List String) (db : MenuDB) : MenuDB :=
  let deadItems := (db.items.filter (fun i => decide (i.category_id ∈ ids))).map
    (fun i => i.id)
  ⟨db.categories.filter (fun c => decide (c.id ∉ ids)),
   db.items.filter (fun i => decide (i.category_id ∉ ids)),
   db.variants.filter (fun v => decide (v.menu_item_id ∉ deadItems))⟩

/-- Deleting items by id, cascading to their variants. -/
def deleteItemsCascade (ids : List String) (db : MenuDB) : MenuDB :=
  ⟨db.categories,
   db.items.filter (fun i => decide (i.id ∉ ids)),
   db.variants.filter (fun v => decide (v.menu_item_id ∉ ids))⟩

/-- Deleting variants by id (`delete().in('id', variantsToDelete)`). -/
def deleteVariantsByIds (ids : List String) (db : MenuDB) : MenuDB :=
  { db with variants := db.variants.filter (fun v => decide (v.id ∉ ids)) }

/-- The category row the save upserts at position `j`. -/
def catRowOf (restaurantId : String) (j : ℕ) (c : MenuCategoryUI) : CategoryRow :=
  ⟨c.id, restaurantId, c.name, j⟩

/-- The item row the save upserts at position `k` of its category. -/
def itemRowOf (categoryId : String) (k : ℕ) (i : MenuItemUI) : ItemRow :=
  ⟨i.id, categoryId, i.name, i.description, i.price, k⟩

/-- The variant row the save upserts at position `m` of its item. -/
def varRowOf (menuItemId : String) (m : ℕ) (v : MenuItemVariantUI) : VariantRow :=
  ⟨v.id, menuItemId, v.name, v.price, m⟩

/-- The variant upsert loop
(`for (let [variantIndex, variant] of item.variants.entries())`). -/
def saveVariants (menuItemId : String) : ℕ → List MenuItemVariantUI → MenuDB → MenuDB
  | _, [], db => db
  | m, v :: vs, db =>
    saveVariants menuItemId (m + 1) vs
      { db with variants := upsertBy (fun r => r.id) (varRowOf menuItemId m v) db.variants }

/-- The per-item variant reconciliation of `saveRestaurantMenu`
(lines 543-594): with a non-empty new variant set, delete the item's
stale variants and upsert each new one with its position as `order`;
with an empty new set, delete all of the item's variants. -/
def reconcileVariants (item : MenuItemUI) (db : MenuDB) : MenuDB :=
  if 0 < item.variants.length then
    let existingVariantIds := (db.variants.filter
      (fun v => decide (v.menu_item_id = item.id))).map (fun v => v.id)
    let newVariantIds := item.variants.map (fun v => v.id)
    let variantsToDelete := existingVariantIds.filter (fun x : String => decide (x ∉ newVariantIds))
    saveVariants item.id 0 item.variants (deleteVariantsByIds variantsToDelete db)
  else
    { db with variants := db.variants.filter (fun v => decide (v.menu_item_id ≠ item.id)) }

/-- Upsert one item row, then reconcile its variants. -/
def saveItem (categoryId : String) (k : ℕ) (item : MenuItemUI) (db : MenuDB) : MenuDB :=
  reconcileVariants item
    { db with items := upsertBy (fun r => r.id) (itemRowOf categoryId k item) db.items }

/-- The item loop of one category
(`for (let [itemIndex, item] of category.items.entries())`). -/
def saveItems (categoryId : String) : ℕ → List MenuItemUI → MenuDB → MenuDB
  | _, [], db => db
  | k, i :: rest, db => saveItems categoryId (k + 1) rest (saveItem categoryId k i db)

/-- Processing one category: upsert its row with its position as
`order`, delete the items of this category absent from the new set
(cascading to their variants), then run the item loop. -/
def saveCategory (restaurantId : String) (j : ℕ) (cat : MenuCategoryUI) (db : MenuDB) :
    MenuDB :=
  let db1 : MenuDB :=
    { db with categories := upsertBy (fun r => r.id) (catRowOf restaurantId j cat) db.categories }
  let existingItemIds := (db1.items.filter
    (fun i => decide (i.category_id = cat.id))).map (fun i => i.id)
  let newItemIds := cat.items.map (fun i => i.id)
  let itemsToDelete := existingItemIds.filter (fun x : String => decide (x ∉ newItemIds))
  saveItems cat.id 0 cat.items (deleteItemsCascade itemsToDelete db1)

/-- The category loop (`for (let [index, category] of categories.entries())`). -/
def saveCategories (restaurantId : String) : ℕ → List MenuCategoryUI → MenuDB → MenuDB
  | _, [], db => db
  | j, c :: cs, db => saveCategories restaurantId (j + 1) cs (saveCategory restaurantId j c db)

/-- `saveRestaurantMenu` from `menuService.ts` (lines 382-735), happy
path, restricted to the category/item/variant tables: delete the
restaurant's categories absent from the saved structure (with cascade),
then process each saved category in order. -/
def saveRestaurantMenu (restaurantId : String) (categories : List MenuCategoryUI)
    (db : MenuDB) : MenuDB :=
  let existingCategoryIds := (db.categories.filter
    (fun c => decide (c.restaurant_id = restaurantId))).map (fun c => c.id)
  let newCategoryIds := categories.map (fun c => c.id)
  let categoriesToDelete := existingCategoryIds.filter (fun x : String => decide (x ∉ newCategoryIds))
  saveCategories restaurantId 0 categories (deleteCategoriesCascade categoriesToDelete db)

/-- The category rows the saved structure prescribes, from position `j`. -/
def savedCatRows (restaurantId : String) : ℕ → List MenuCategoryUI → List CategoryRow
  | _, [] => []
  | j, c :: cs => catRowOf restaurantId j c :: savedCatRows restaurantId (j + 1) cs

/-- The item rows one category prescribes, from position `k`. -/
def savedItemRowsAux (categoryId : String) : ℕ → List MenuItemUI → List ItemRow
  | _, [] => []
  | k, i :: rest => itemRowOf categoryId k i :: savedItemRowsAux categoryId (k + 1) rest

/-- All item rows the saved structure prescribes. -/
def savedItemRows (cats : List MenuCategoryUI) : List ItemRow :=
  cats.flatMap (fun c => savedItemRowsAux c.id 0 c.items)

/-- The variant rows one item prescribes, from position `m`. -/
def savedVarRowsAux (menuItemId : String) : ℕ → List MenuItemVariantUI → List VariantRow
  | _, [] => []
  | m, v :: vs => varRowOf menuItemId m v :: savedVarRowsAux menuItemId (m + 1) vs

/-- The variant rows one item prescribes. -/
def savedVarRowsOfItem (i : MenuItemUI) : List VariantRow :=
  savedVarRowsAux i.id 0 i.variants

/-- All variant rows the saved structure prescribes. -/
def savedVarRows (cats : List MenuCategoryUI) : List VariantRow :=
  cats.flatMap (fun c => c.items.flatMap savedVarRowsOfItem)

/-- Item ids of a saved category. -/
def itemIdsOf (c : MenuCategoryUI) : List String := c.items.map (fun i => i.id)

/-- All saved item ids. -/
def allItemIds (cats : List MenuCategoryUI) : List String := cats.flatMap itemIdsOf

/-- Variant ids of a saved item. -/
def varIdsOfItem (i : MenuItemUI) : List String := i.variants.map (fun v => v.id)

/-- All saved variant ids. -/
def allVarIds (cats : List MenuCategoryUI) : List String :=
  cats.flatMap (fun c => c.items.flatMap varIdsOfItem)

/-- Well-formedness of the remote state: primary keys are unique. -/
def MenuDB.WF (db : MenuDB) : Prop :=
  (db.categories.map (fun c => c.id)).Nodup ∧
  (db.items.map (fun i => i.id)).Nodup ∧
  (db.variants.map (fun v => v.id)).Nodup

end WebFixer

namespace WebFixer

theorem mem_upsertBy {β : Type} (key : β → String) (row : β) (l : List β) (x : β) :
    x ∈ upsertBy key row l ↔ (x ∈ l ∧ key x ≠ key row) ∨ x = row := by
  unfold upsertBy
  by_cases hany : l.any (fun x => decide (key x = key row))
  · rw [if_pos hany]
    obtain ⟨y, hy, hky⟩ := List.any_eq_true.mp hany
    rw [decide_eq_true_eq] at hky
    constructor
    · intro hx
      obtain ⟨a, ha, hax⟩ := List.mem_map.mp hx
      by_cases hk : key a = key row
      · rw [if_pos hk] at hax
        exact Or.inr hax.symm
      · rw [if_neg hk] at hax
        exact Or.inl ⟨hax ▸ ha, hax ▸ hk⟩
    · rintro (⟨hx, hk⟩ | rfl)
      · refine List.mem_map.mpr ⟨x, hx, ?_⟩
        rw [if_neg hk]
      · exact List.mem_map.mpr ⟨y, hy, by rw [if_pos hky]⟩
  · rw [if_neg hany]
    rw [List.any_eq_true] at hany
    push_neg at hany
    constructor
    · intro hx
      rcases List.mem_append.mp hx with h | h
      · refine Or.inl ⟨h, ?_⟩
        simpa using hany x h
      · exact Or.inr (List.mem_singleton.mp h)
    · rintro (⟨hx, _⟩ | rfl)
      · exact List.mem_append.mpr (Or.inl hx)
      · exact List.mem_append.mpr (Or.inr (List.mem_singleton.mpr rfl))

theorem nodup_keys_upsertBy {β : Type} (key : β → String) (row : β) (l : List β)
    (h : (l.map key).Nodup) : ((upsertBy key row l).map key).Nodup := by
  unfold upsertBy
  by_cases hany : l.any (fun x => decide (key x = key row))
  · rw [if_pos hany, List.map_map]
    have : ∀ a ∈ l, (key ∘ fun x => if key x = key row then row else x) a = key a := by
      intro a _
      by_cases hk : key a = key row
      · simp [Function.comp, hk]
      · simp [Function.comp, hk]
    rw [List.map_congr_left this]
    exact h
  · rw [if_neg hany, List.map_append]
    rw [List.any_eq_true] at hany
    push_neg at hany
    refine List.Nodup.append h (List.nodup_singleton _) ?_
    intro a ha hb
    simp only [List.map_cons, List.map_nil, List.mem_singleton] at hb
    obtain ⟨y, hy, hky⟩ := List.mem_map.mp ha
    have hne : ¬(key y = key row) := by simpa using hany y hy
    exact hne (by rw [hky, hb])

end WebFixer

namespace WebFixer

theorem saveVariants_categories (menuItemId : String) (vs : List MenuItemVariantUI)
    (m : ℕ) (db : MenuDB) :
    (saveVariants menuItemId m vs db).categories = db.categories := by
  induction vs generalizing m db with
  | nil => rfl
  | cons v vs ih => exact ih (m + 1) _

theorem saveVariants_items (menuItemId : String) (vs : List MenuItemVariantUI)
    (m : ℕ) (db : MenuDB) :
    (saveVariants menuItemId m vs db).items = db.items := by
  induction vs generalizing m db with
  | nil => rfl
  | cons v vs ih => exact ih (m + 1) _

theorem mem_savedVarRowsAux (menuItemId : String) (vs : List MenuItemVariantUI)
    (m : ℕ) (x : VariantRow) (hx : x ∈ savedVarRowsAux menuItemId m vs) :
    x.menu_item_id = menuItemId ∧ x.id ∈ vs.map (fun v => v.id) := by
  induction vs generalizing m with
  | nil => exact absurd hx (List.not_mem_nil x)
  | cons v vs ih =>
    rcases List.mem_cons.mp hx with h | h
    · subst h
      exact ⟨rfl, List.mem_cons_self _ _⟩
    · obtain ⟨h1, h2⟩ := ih (m + 1) h
      exact ⟨h1, List.mem_cons_of_mem _ h2⟩

theorem mem_saveVariants_variants (menuItemId : String) (vs : List MenuItemVariantUI)
    (m : ℕ) (db : MenuDB) (hvs : (vs.map (fun v => v.id)).Nodup) (x : VariantRow) :
    x ∈ (saveVariants menuItemId m vs db).variants ↔
      (x ∈ db.variants ∧ x.id ∉ vs.map (fun v => v.id)) ∨
      x ∈ savedVarRowsAux menuItemId m vs := by
  induction vs generalizing m db with
  | nil => simp [saveVariants, savedVarRowsAux]
  | cons v vs ih =>
    have hvs2 : (vs.map (fun v => v.id)).Nodup := (List.nodup_cons.mp hvs).2
    have hvid : v.id ∉ vs.map (fun v => v.id) := (List.nodup_cons.mp hvs).1
    show x ∈ (saveVariants menuItemId (m + 1) vs _).variants ↔ _
    rw [ih (m + 1) _ hvs2]
    show (x ∈ upsertBy (fun r => r.id) (varRowOf menuItemId m v) db.variants ∧ _) ∨ _ ↔ _
    rw [mem_upsertBy]
    constructor
    · rintro (⟨(⟨hdb, hne⟩ | rfl), htail⟩ | hsaved)
      · exact Or.inl ⟨hdb, by simp [List.map_cons, List.mem_cons]; exact ⟨hne, by simpa using htail⟩⟩
      · exact Or.inr (List.mem_cons_self _ _)
      · exact Or.inr (List.mem_cons_of_mem _ hsaved)
    · rintro (⟨hdb, hnotin⟩ | hsaved)
      · simp only [List.map_cons, List.mem_cons, not_or] at hnotin
        exact Or.inl ⟨Or.inl ⟨hdb, hnotin.1⟩, by simpa using hnotin.2⟩
      · rcases List.mem_cons.mp hsaved with h | h
        · subst h
          exact Or.inl ⟨Or.inr rfl, by simpa using hvid⟩
        · exact Or.inr h

theorem saveVariants_nodup (menuItemId : String) (vs : List MenuItemVariantUI)
    (m : ℕ) (db : MenuDB) (h : (db.variants.map (fun v => v.id)).Nodup) :
    ((saveVariants menuItemId m vs db).variants.map (fun v => v.id)).Nodup := by
  induction vs generalizing m db with
  | nil => exact h
  | cons v vs ih =>
    exact ih (m + 1) _ (nodup_keys_upsertBy (fun r => r.id) (varRowOf menuItemId m v) db.variants h)

end WebFixer

namespace WebFixer

theorem nodup_map_filter {β : Type} (f : β → String) (p : β → Bool) (l : List β)
    (h : (l.map f).Nodup) : ((l.filter p).map f).Nodup :=
  List.Nodup.sublist (List.Sublist.map f (List.filter_sublist l)) h

theorem reconcileVariants_categories (item : MenuItemUI) (db : MenuDB) :
    (reconcileVariants item db).categories = db.categories := by
  unfold reconcileVariants
  by_cases h : 0 < item.variants.length
  · rw [if_pos h]
    exact saveVariants_categories item.id item.variants 0 _
  · rw [if_neg h]

theorem reconcileVariants_items (item : MenuItemUI) (db : MenuDB) :
    (reconcileVariants item db).items = db.items := by
  unfold reconcileVariants
  by_cases h : 0 < item.variants.length
  · rw [if_pos h]
    exact saveVariants_items item.id item.variants 0 _
  · rw [if_neg h]

theorem mem_reconcileVariants (item : MenuItemUI) (db : MenuDB)
    (hdb : (db.variants.map (fun v => v.id)).Nodup)
    (hitem : (varIdsOfItem item).Nodup) (x : VariantRow) :
    x ∈ (reconcileVariants item db).variants ↔
      (x ∈ db.variants ∧ x.menu_item_id ≠ item.id ∧ x.id ∉ varIdsOfItem item) ∨
      x ∈ savedVarRowsOfItem item := by
  unfold reconcileVariants
  by_cases h : 0 < item.variants.length
  · rw [if_pos h]
    rw [mem_saveVariants_variants item.id item.variants 0 _ hitem]
    unfold savedVarRowsOfItem
    have hdel : ∀ y : VariantRow, y ∈ db.variants →
        (y.id ∈ (db.variants.filter (fun v => decide (v.menu_item_id = item.id))).map
            (fun v => v.id)
          ↔ y.menu_item_id = item.id) := by
      intro y hy
      constructor
      · intro hmem
        obtain ⟨z, hz, hzy⟩ := List.mem_map.mp hmem
        rw [List.mem_filter, decide_eq_true_eq] at hz
        have hzyeq : z = y := List.inj_on_of_nodup_map hdb hz.1 hy hzy
        exact hzyeq ▸ hz.2
      · intro hpar
        refine List.mem_map.mpr ⟨y, ?_, rfl⟩
        rw [List.mem_filter, decide_eq_true_eq]
        exact ⟨hy, hpar⟩
    show ((x ∈ (deleteVariantsByIds _ db).variants ∧ _) ∨ _) ↔ _
    unfold deleteVariantsByIds
    simp only [List.mem_filter, decide_eq_true_eq]
    constructor
    · rintro (⟨⟨hxdb, hxnot⟩, hxnew⟩ | hsaved)
      · refine Or.inl ⟨hxdb, ?_, by unfold varIdsOfItem; simpa using hxnew⟩
        intro hpar
        exact hxnot ⟨(hdel x hxdb).mpr hpar, by simpa using hxnew⟩
      · exact Or.inr hsaved
    · rintro (⟨hxdb, hpar, hxnew⟩ | hsaved)
      · refine Or.inl ⟨⟨hxdb, ?_⟩, by unfold varIdsOfItem at hxnew; simpa using hxnew⟩
        rintro ⟨hA, _⟩
        exact hpar ((hdel x hxdb).mp hA)
      · exact Or.inr hsaved
  · rw [if_neg h]
    have hempty : item.variants = [] := by
      cases hv : item.variants with
      | nil => rfl
      | cons a l => rw [hv] at h; simp at h
    show x ∈ List.filter _ db.variants ↔ _
    rw [List.mem_filter]
    unfold savedVarRowsOfItem varIdsOfItem
    rw [hempty]
    simp [savedVarRowsAux]

theorem reconcileVariants_nodup (item : MenuItemUI) (db : MenuDB)
    (hdb : (db.variants.map (fun v => v.id)).Nodup) :
    (((reconcileVariants item db).variants).map (fun v => v.id)).Nodup := by
  unfold reconcileVariants
  by_cases h : 0 < item.variants.length
  · rw [if_pos h]
    apply saveVariants_nodup
    exact nodup_map_filter (fun v => v.id) _ db.variants hdb
  · rw [if_neg h]
    exact nodup_map_filter (fun v => v.id) _ db.variants hdb

end WebFixer

namespace WebFixer

theorem saveItem_categories (categoryId : String) (k : ℕ) (item : MenuItemUI) (db : MenuDB) :
    (saveItem categoryId k item db).categories = db.categories := by
  unfold saveItem
  rw [reconcileVariants_categories]

theorem saveItem_items (categoryId : String) (k : ℕ) (item : MenuItemUI) (db : MenuDB) :
    (saveItem categoryId k item db).items =
      upsertBy (fun r => r.id) (itemRowOf categoryId k item) db.items := by
  unfold saveItem
  rw [reconcileVariants_items]

theorem mem_saveItem_variants (categoryId : String) (k : ℕ) (item : MenuItemUI)
    (db : MenuDB) (hdb : (db.variants.map (fun v => v.id)).Nodup)
    (hitem : (varIdsOfItem item).Nodup) (x : VariantRow) :
    x ∈ (saveItem categoryId k item db).variants ↔
      (x ∈ db.variants ∧ x.menu_item_id ≠ item.id ∧ x.id ∉ varIdsOfItem item) ∨
      x ∈ savedVarRowsOfItem item := by
  unfold saveItem
  exact mem_reconcileVariants item
    { db with items := upsertBy (fun r => r.id) (itemRowOf categoryId k item) db.items }
    hdb hitem x

theorem saveItem_variants_nodup (categoryId : String) (k : ℕ) (item : MenuItemUI)
    (db : MenuDB) (hdb : (db.variants.map (fun v => v.id)).Nodup) :
    (((saveItem categoryId k item db).variants).map (fun v => v.id)).Nodup := by
  unfold saveItem
  exact reconcileVariants_nodup item
    { db with items := upsertBy (fun r => r.id) (itemRowOf categoryId k item) db.items } hdb

theorem saveItem_items_nodup (categoryId : String) (k : ℕ) (item : MenuItemUI)
    (db : MenuDB) (hdb : (db.items.map (fun i => i.id)).Nodup) :
    (((saveItem categoryId k item db).items).map (fun i => i.id)).Nodup := by
  rw [saveItem_items]
  exact nodup_keys_upsertBy (fun r => r.id) _ db.items hdb

theorem mem_savedItemRowsAux (categoryId : String) (items : List MenuItemUI) (k : ℕ)
    (x : ItemRow) (hx : x ∈ savedItemRowsAux categoryId k items) :
    x.category_id = categoryId ∧ x.id ∈ items.map (fun i => i.id) := by
  induction items generalizing k with
  | nil => exact absurd hx (List.not_mem_nil x)
  | cons i rest ih =>
    rcases List.mem_cons.mp hx with h | h
    · subst h
      exact ⟨rfl, List.mem_cons_self _ _⟩
    · obtain ⟨h1, h2⟩ := ih (k + 1) h
      exact ⟨h1, List.mem_cons_of_mem _ h2⟩

theorem saveItems_categories (categoryId : String) (items : List MenuItemUI) (k : ℕ)
    (db : MenuDB) :
    (saveItems categoryId k items db).categories = db.categories := by
  induction items generalizing k db with
  | nil => rfl
  | cons i rest ih =>
    show (saveItems categoryId (k + 1) rest _).categories = _
    rw [ih (k + 1) _, saveItem_categories]

theorem mem_saveItems_items (categoryId : String) (items : List MenuItemUI) (k : ℕ)
    (db : MenuDB) (hids : (items.map (fun i => i.id)).Nodup) (x : ItemRow) :
    x ∈ (saveItems categoryId k items db).items ↔
      (x ∈ db.items ∧ x.id ∉ items.map (fun i => i.id)) ∨
      x ∈ savedItemRowsAux categoryId k items := by
  induction items generalizing k db with
  | nil => simp [saveItems, savedItemRowsAux]
  | cons i rest ih =>
    have hids2 : (rest.map (fun i => i.id)).Nodup := (List.nodup_cons.mp hids).2
    have hiid : i.id ∉ rest.map (fun i => i.id) := (List.nodup_cons.mp hids).1
    show x ∈ (saveItems categoryId (k + 1) rest _).items ↔ _
    rw [ih (k + 1) _ hids2, saveItem_items, mem_upsertBy]
    constructor
    · rintro (⟨(⟨hdb, hne⟩ | rfl), htail⟩ | hsaved)
      · refine Or.inl ⟨hdb, ?_⟩
        simp only [List.map_cons, List.mem_cons, not_or]
        exact ⟨hne, by simpa using htail⟩
      · exact Or.inr (List.mem_cons_self _ _)
      · exact Or.inr (List.mem_cons_of_mem _ hsaved)
    · rintro (⟨hdb, hnotin⟩ | hsaved)
      · simp only [List.map_cons, List.mem_cons, not_or] at hnotin
        exact Or.inl ⟨Or.inl ⟨hdb, hnotin.1⟩, by simpa using hnotin.2⟩
      · rcases List.mem_cons.mp hsaved with h | h
        · subst h
          exact Or.inl ⟨Or.inr rfl, by simpa using hiid⟩
        · exact Or.inr h

theorem saveItems_items_nodup (categoryId : String) (items : List MenuItemUI) (k : ℕ)
    (db : MenuDB) (hdb : (db.items.map (fun i => i.id)).Nodup) :
    (((saveItems categoryId k items db).items).map (fun i => i.id)).Nodup := by
  induction items generalizing k db with
  | nil => exact hdb
  | cons i rest ih => exact ih (k + 1) _ (saveItem_items_nodup categoryId k i db hdb)

theorem saveItems_variants_nodup (categoryId : String) (items : List MenuItemUI) (k : ℕ)
    (db : MenuDB) (hdb : (db.variants.map (fun v => v.id)).Nodup) :
    (((saveItems categoryId k items db).variants).map (fun v => v.id)).Nodup := by
  induction items generalizing k db with
  | nil => exact hdb
  | cons i rest ih => exact ih (k + 1) _ (saveItem_variants_nodup categoryId k i db hdb)

theorem mem_savedVarRowsOfItems (items : List MenuItemUI) (x : VariantRow)
    (hx : x ∈ items.flatMap savedVarRowsOfItem) :
    ∃ i ∈ items, x.menu_item_id = i.id ∧ x.id ∈ varIdsOfItem i := by
  obtain ⟨i, hi, hxi⟩ := List.mem_flatMap.mp hx
  obtain ⟨h1, h2⟩ := mem_savedVarRowsAux i.id i.variants 0 x hxi
  exact ⟨i, hi, h1, h2⟩

theorem mem_saveItems_variants (categoryId : String) (items : List MenuItemUI) (k : ℕ)
    (db : MenuDB) (hdb : (db.variants.map (fun v => v.id)).Nodup)
    (hids : (items.map (fun i => i.id)).Nodup)
    (hvars : (items.flatMap varIdsOfItem).Nodup) (x : VariantRow) :
    x ∈ (saveItems categoryId k items db).variants ↔
      (x ∈ db.variants ∧ ∀ i ∈ items, x.menu_item_id ≠ i.id ∧ x.id ∉ varIdsOfItem i) ∨
      x ∈ items.flatMap savedVarRowsOfItem := by
  induction items generalizing k db with
  | nil => simp [saveItems]
  | cons i rest ih =>
    have hids2 : (rest.map (fun i => i.id)).Nodup := (List.nodup_cons.mp hids).2
    have hiid : i.id ∉ rest.map (fun i => i.id) := (List.nodup_cons.mp hids).1
    rw [show (i :: rest).flatMap varIdsOfItem = varIdsOfItem i ++ rest.flatMap varIdsOfItem
      from rfl, List.nodup_append] at hvars
    obtain ⟨hv1, hv2, hv3⟩ := hvars
    show x ∈ (saveItems categoryId (k + 1) rest _).variants ↔ _
    rw [ih (k + 1) _ (saveItem_variants_nodup categoryId k i db hdb) hids2 hv2,
      mem_saveItem_variants categoryId k i db hdb hv1]
    constructor
    · rintro (⟨(⟨hdbx, hpar, hvid⟩ | hsavedi), hrest⟩ | hsaved)
      · refine Or.inl ⟨hdbx, ?_⟩
        intro i2 hi2
        rcases List.mem_cons.mp hi2 with h | h
        · exact h ▸ ⟨hpar, hvid⟩
        · exact hrest i2 h
      · exact Or.inr (List.mem_flatMap.mpr ⟨i, List.mem_cons_self _ _, hsavedi⟩)
      · obtain ⟨i2, hi2, hxi2⟩ := List.mem_flatMap.mp hsaved
        exact Or.inr (List.mem_flatMap.mpr ⟨i2, List.mem_cons_of_mem _ hi2, hxi2⟩)
    · rintro (⟨hdbx, hall⟩ | hsaved)
      · refine Or.inl ⟨Or.inl ⟨hdbx, (hall i (List.mem_cons_self _ _)).1,
          (hall i (List.mem_cons_self _ _)).2⟩, ?_⟩
        intro i2 hi2
        exact hall i2 (List.mem_cons_of_mem _ hi2)
      · obtain ⟨i2, hi2, hxi2⟩ := List.mem_flatMap.mp hsaved
        rcases List.mem_cons.mp hi2 with h | h
        · subst h
          refine Or.inl ⟨Or.inr hxi2, ?_⟩
          intro i3 hi3
          obtain ⟨hpar, hvid⟩ := mem_savedVarRowsAux i2.id i2.variants 0 x hxi2
          constructor
          · rw [hpar]
            intro heq
            exact hiid (heq ▸ List.mem_map_of_mem (fun i => i.id) hi3)
          · intro hmem
            exact (hv3 hvid) (List.mem_flatMap.mpr ⟨i3, hi3, hmem⟩)
        · exact Or.inr (List.mem_flatMap.mpr ⟨i2, h, hxi2⟩)

end WebFixer

namespace WebFixer

theorem saveCategory_categories (restaurantId : String) (j : ℕ) (cat : MenuCategoryUI)
    (db : MenuDB) :
    (saveCategory restaurantId j cat db).categories =
      upsertBy (fun r => r.id) (catRowOf restaurantId j cat) db.categories := by
  simp only [saveCategory]
  rw [saveItems_categories]
  rfl

theorem mem_saveCategory_items (restaurantId : String) (j : ℕ) (cat : MenuCategoryUI)
    (db : MenuDB) (hdbitems : (db.items.map (fun i => i.id)).Nodup)
    (hcitems : (itemIdsOf cat).Nodup) (x : ItemRow) :
    x ∈ (saveCategory restaurantId j cat db).items ↔
      (x ∈ db.items ∧ x.category_id ≠ cat.id ∧ x.id ∉ itemIdsOf cat) ∨
      x ∈ savedItemRowsAux cat.id 0 cat.items := by
  simp only [saveCategory]
  rw [mem_saveItems_items cat.id cat.items 0 _ hcitems]
  show ((x ∈ (deleteItemsCascade _ _).items ∧ _) ∨ _) ↔ _
  unfold deleteItemsCascade
  simp only [List.mem_filter, decide_eq_true_eq]
  have hInner : ∀ y : ItemRow, y ∈ db.items →
      (y.id ∈ (db.items.filter (fun i => decide (i.category_id = cat.id))).map
          (fun i => i.id)
        ↔ y.category_id = cat.id) := by
    intro y hy
    constructor
    · intro hmem
      obtain ⟨z, hz, hzy⟩ := List.mem_map.mp hmem
      rw [List.mem_filter, decide_eq_true_eq] at hz
      have hzyeq : z = y := List.inj_on_of_nodup_map hdbitems hz.1 hy hzy
      exact hzyeq ▸ hz.2
    · intro hcat
      refine List.mem_map.mpr ⟨y, ?_, rfl⟩
      rw [List.mem_filter, decide_eq_true_eq]
      exact ⟨hy, hcat⟩
  constructor
  · rintro (⟨⟨hxdb, hxnot⟩, hxnew⟩ | hsaved)
    · refine Or.inl ⟨hxdb, ?_, by unfold itemIdsOf; simpa using hxnew⟩
      intro hcat
      exact hxnot ⟨(hInner x hxdb).mpr hcat, by simpa using hxnew⟩
    · exact Or.inr hsaved
  · rintro (⟨hxdb, hcat, hxnew⟩ | hsaved)
    · refine Or.inl ⟨⟨hxdb, ?_⟩, by unfold itemIdsOf at hxnew; simpa using hxnew⟩
      rintro ⟨hA, _⟩
      exact hcat ((hInner x hxdb).mp hA)
    · exact Or.inr hsaved

end WebFixer

namespace WebFixer

/-- An item row of this category that the delete step targeted: the
source of a cascade on its variants during `saveCategory`. -/
def parentDeleted (cat : MenuCategoryUI) (db : MenuDB) (x : VariantRow) : Prop :=
  ∃ d ∈ db.items, d.category_id = cat.id ∧ d.id ∉ itemIdsOf cat ∧ x.menu_item_id = d.id

theorem mem_saveCategory_variants (restaurantId : String) (j : ℕ) (cat : MenuCategoryUI)
    (db : MenuDB) (hvardb : (db.variants.map (fun v => v.id)).Nodup)
    (hcitems : (itemIdsOf cat).Nodup)
    (hcvars : (cat.items.flatMap varIdsOfItem).Nodup) (x : VariantRow) :
    x ∈ (saveCategory restaurantId j cat db).variants ↔
      (x ∈ db.variants ∧ ¬parentDeleted cat db x ∧
        ∀ i ∈ cat.items, x.menu_item_id ≠ i.id ∧ x.id ∉ varIdsOfItem i) ∨
      x ∈ cat.items.flatMap savedVarRowsOfItem := by
  simp only [saveCategory]
  rw [mem_saveItems_variants cat.id cat.items 0 _
    (nodup_map_filter (fun v => v.id) _ db.variants hvardb) hcitems hcvars]
  show ((x ∈ (deleteItemsCascade _ _).variants ∧ _) ∨ _) ↔ _
  unfold deleteItemsCascade
  simp only [List.mem_filter, decide_eq_true_eq]
  have hTD : ((x.menu_item_id ∈ (db.items.filter
        (fun i => decide (i.category_id = cat.id))).map (fun i => i.id) ∧
        x.menu_item_id ∉ cat.items.map (fun i => i.id))
      ↔ parentDeleted cat db x) := by
    unfold parentDeleted itemIdsOf
    constructor
    · rintro ⟨hmem, hnot⟩
      obtain ⟨z, hz, hzy⟩ := List.mem_map.mp hmem
      rw [List.mem_filter, decide_eq_true_eq] at hz
      exact ⟨z, hz.1, hz.2, hzy ▸ hnot, hzy.symm⟩
    · rintro ⟨d, hd, hcatd, hnotd, hpar⟩
      refine ⟨List.mem_map.mpr ⟨d, ?_, hpar.symm⟩, hpar ▸ hnotd⟩
      rw [List.mem_filter, decide_eq_true_eq]
      exact ⟨hd, hcatd⟩
  constructor
  · rintro (⟨⟨hxdb, hxnot⟩, hrest⟩ | hsaved)
    · exact Or.inl ⟨hxdb, fun hpd => hxnot (hTD.mpr hpd), hrest⟩
    · exact Or.inr hsaved
  · rintro (⟨hxdb, hnpd, hrest⟩ | hsaved)
    · exact Or.inl ⟨⟨hxdb, fun hmem => hnpd (hTD.mp hmem)⟩, hrest⟩
    · exact Or.inr hsaved

theorem saveCategory_WF (restaurantId : String) (j : ℕ) (cat : MenuCategoryUI)
    (db : MenuDB) (h : db.WF) : (saveCategory restaurantId j cat db).WF := by
  obtain ⟨h1, h2, h3⟩ := h
  refine ⟨?_, ?_, ?_⟩
  · rw [saveCategory_categories]
    exact nodup_keys_upsertBy (fun r => r.id) _ db.categories h1
  · simp only [saveCategory]
    apply saveItems_items_nodup
    exact nodup_map_filter (fun i => i.id) _ db.items h2
  · simp only [saveCategory]
    apply saveItems_variants_nodup
    exact nodup_map_filter (fun v => v.id) _ db.variants h3

end WebFixer

namespace WebFixer

theorem allItemIds_cons (c : MenuCategoryUI) (cs : List MenuCategoryUI) :
    allItemIds (c :: cs) = itemIdsOf c ++ allItemIds cs := rfl

theorem allVarIds_cons (c : MenuCategoryUI) (cs : List MenuCategoryUI) :
    allVarIds (c :: cs) = c.items.flatMap varIdsOfItem ++ allVarIds cs := rfl

theorem savedItemRows_cons (c : MenuCategoryUI) (cs : List MenuCategoryUI) :
    savedItemRows (c :: cs) = savedItemRowsAux c.id 0 c.items ++ savedItemRows cs := rfl

theorem savedVarRows_cons (c : MenuCategoryUI) (cs : List MenuCategoryUI) :
    savedVarRows (c :: cs) = c.items.flatMap savedVarRowsOfItem ++ savedVarRows cs := rfl

theorem mem_savedCatRows (restaurantId : String) (cs : List MenuCategoryUI) (j : ℕ)
    (r : CategoryRow) (hr : r ∈ savedCatRows restaurantId j cs) :
    r.restaurant_id = restaurantId ∧ r.id ∈ cs.map (fun c => c.id) := by
  induction cs generalizing j with
  | nil => exact absurd hr (List.not_mem_nil r)
  | cons c cs ih =>
    rcases List.mem_cons.mp hr with h | h
    · subst h
      exact ⟨rfl, List.mem_cons_self _ _⟩
    · obtain ⟨h1, h2⟩ := ih (j + 1) h
      exact ⟨h1, List.mem_cons_of_mem _ h2⟩

theorem mem_savedItemRows (cs : List MenuCategoryUI) (r : ItemRow)
    (hr : r ∈ savedItemRows cs) :
    r.id ∈ allItemIds cs ∧ r.category_id ∈ cs.map (fun c => c.id) := by
  obtain ⟨c, hc, hrc⟩ := List.mem_flatMap.mp hr
  obtain ⟨h1, h2⟩ := mem_savedItemRowsAux c.id c.items 0 r hrc
  exact ⟨List.mem_flatMap.mpr ⟨c, hc, h2⟩, List.mem_map.mpr ⟨c, hc, h1.symm⟩⟩

theorem mem_savedVarRows (cs : List MenuCategoryUI) (x : VariantRow)
    (hx : x ∈ savedVarRows cs) :
    x.id ∈ allVarIds cs ∧ x.menu_item_id ∈ allItemIds cs := by
  obtain ⟨c, hc, hxc⟩ := List.mem_flatMap.mp hx
  obtain ⟨i, hi, h1, h2⟩ := mem_savedVarRowsOfItems c.items x hxc
  constructor
  · exact List.mem_flatMap.mpr ⟨c, hc, List.mem_flatMap.mpr ⟨i, hi, h2⟩⟩
  · exact List.mem_flatMap.mpr ⟨c, hc, List.mem_map.mpr ⟨i, hi, h1.symm⟩⟩

theorem saveCategories_preserves_categories (restaurantId : String)
    (cs : List MenuCategoryUI) (j : ℕ) (db : MenuDB) (r : CategoryRow)
    (hr : r ∈ db.categories) (hnot : r.id ∉ cs.map (fun c => c.id)) :
    r ∈ (saveCategories restaurantId j cs db).categories := by
  induction cs generalizing j db with
  | nil => exact hr
  | cons c cs ih =>
    simp only [List.map_cons, List.mem_cons, not_or] at hnot
    refine ih (j + 1) _ ?_ hnot.2
    rw [saveCategory_categories, mem_upsertBy]
    exact Or.inl ⟨hr, hnot.1⟩

theorem saveCategories_preserves_items (restaurantId : String)
    (cs : List MenuCategoryUI) (j : ℕ) (db : MenuDB) (r : ItemRow)
    (hWF : db.WF) (hA : (allItemIds cs).Nodup)
    (hr : r ∈ db.items) (hcat : r.category_id ∉ cs.map (fun c => c.id))
    (hid : r.id ∉ allItemIds cs) :
    r ∈ (saveCategories restaurantId j cs db).items := by
  induction cs generalizing j db with
  | nil => exact hr
  | cons c cs ih =>
    simp only [List.map_cons, List.mem_cons, not_or] at hcat
    rw [allItemIds_cons, List.nodup_append] at hA
    rw [allItemIds_cons, List.mem_append, not_or] at hid
    refine ih (j + 1) _ (saveCategory_WF restaurantId j c db hWF) hA.2.1 ?_ hcat.2 hid.2
    rw [mem_saveCategory_items restaurantId j c db hWF.2.1 hA.1]
    exact Or.inl ⟨hr, hcat.1, hid.1⟩

theorem saveCategories_preserves_variants (restaurantId : String)
    (cs : List MenuCategoryUI) (j : ℕ) (db : MenuDB) (x : VariantRow)
    (hWF : db.WF) (hA : (allItemIds cs).Nodup) (hV : (allVarIds cs).Nodup)
    (hx : x ∈ db.variants)
    (h1 : ∀ d ∈ db.items, d.id = x.menu_item_id → d.category_id ∉ cs.map (fun c => c.id))
    (h2 : x.menu_item_id ∉ allItemIds cs)
    (h3 : x.id ∉ allVarIds cs) :
    x ∈ (saveCategories restaurantId j cs db).variants := by
  induction cs generalizing j db with
  | nil => exact hx
  | cons c cs ih =>
    rw [allItemIds_cons, List.nodup_append] at hA
    rw [allVarIds_cons, List.nodup_append] at hV
    rw [allItemIds_cons, List.mem_append, not_or] at h2
    rw [allVarIds_cons, List.mem_append, not_or] at h3
    have hx2 : x ∈ (saveCategory restaurantId j c db).variants := by
      rw [mem_saveCategory_variants restaurantId j c db hWF.2.2 hA.1 hV.1]
      refine Or.inl ⟨hx, ?_, ?_⟩
      · rintro ⟨d, hd, hcatd, _, hpar⟩
        have := h1 d hd hpar.symm
        simp only [List.map_cons, List.mem_cons, not_or] at this
        exact this.1 hcatd
      · intro i hi
        constructor
        · intro heq
          exact h2.1 (heq ▸ List.mem_map_of_mem (fun i => i.id) hi)
        · intro hmem
          exact h3.1 (List.mem_flatMap.mpr ⟨i, hi, hmem⟩)
    refine ih (j + 1) _ (saveCategory_WF restaurantId j c db hWF) hA.2.1 hV.2.1 hx2 ?_ h2.2 h3.2
    intro d hd hdid
    rw [mem_saveCategory_items restaurantId j c db hWF.2.1 hA.1] at hd
    rcases hd with ⟨hdold, _, _⟩ | hdsaved
    · have := h1 d hdold hdid
      simp only [List.map_cons, List.mem_cons, not_or] at this
      exact this.2
    · obtain ⟨_, hidc⟩ := mem_savedItemRowsAux c.id c.items 0 d hdsaved
      exact absurd (hdid ▸ hidc) h2.1

end WebFixer

namespace WebFixer

theorem mem_saveCategories_categories (restaurantId : String)
    (cs : List MenuCategoryUI) (j : ℕ) (db : MenuDB) (r : CategoryRow)
    (hr : r ∈ (saveCategories restaurantId j cs db).categories) :
    (r ∈ db.categories ∧ r.id ∉ cs.map (fun c => c.id)) ∨
    r ∈ savedCatRows restaurantId j cs := by
  induction cs generalizing j db with
  | nil => exact Or.inl ⟨hr, by simp⟩
  | cons c cs ih =>
    rcases ih (j + 1) _ hr with ⟨hdb2, hnot⟩ | hsaved
    · rw [saveCategory_categories, mem_upsertBy] at hdb2
      rcases hdb2 with ⟨hdb, hne⟩ | heq
      · refine Or.inl ⟨hdb, ?_⟩
        simp only [List.map_cons, List.mem_cons, not_or]
        exact ⟨hne, hnot⟩
      · exact Or.inr (heq ▸ List.mem_cons_self _ _)
    · exact Or.inr (List.mem_cons_of_mem _ hsaved)

theorem mem_saveCategories_items (restaurantId : String)
    (cs : List MenuCategoryUI) (j : ℕ) (db : MenuDB) (r : ItemRow)
    (hWF : db.WF) (hA : (allItemIds cs).Nodup)
    (hr : r ∈ (saveCategories restaurantId j cs db).items) :
    (r ∈ db.items ∧ r.category_id ∉ cs.map (fun c => c.id) ∧ r.id ∉ allItemIds cs) ∨
    r ∈ savedItemRows cs := by
  induction cs generalizing j db with
  | nil => exact Or.inl ⟨hr, by simp, by simp [allItemIds]⟩
  | cons c cs ih =>
    rw [allItemIds_cons, List.nodup_append] at hA
    rcases ih (j + 1) _ (saveCategory_WF restaurantId j c db hWF) hA.2.1 hr with
      ⟨hdb2, hcat, hid⟩ | hsaved
    · rw [mem_saveCategory_items restaurantId j c db hWF.2.1 hA.1] at hdb2
      rcases hdb2 with ⟨hdb, hnc, hni⟩ | hsavedc
      · refine Or.inl ⟨hdb, ?_, ?_⟩
        · simp only [List.map_cons, List.mem_cons, not_or]
          exact ⟨hnc, hcat⟩
        · rw [allItemIds_cons, List.mem_append, not_or]
          exact ⟨hni, hid⟩
      · rw [savedItemRows_cons]
        exact Or.inr (List.mem_append.mpr (Or.inl hsavedc))
    · rw [savedItemRows_cons]
      exact Or.inr (List.mem_append.mpr (Or.inr hsaved))

theorem mem_saveCategories_variants (restaurantId : String)
    (cs : List MenuCategoryUI) (j : ℕ) (db : MenuDB) (x : VariantRow)
    (hWF : db.WF) (hA : (allItemIds cs).Nodup) (hV : (allVarIds cs).Nodup)
    (hx : x ∈ (saveCategories restaurantId j cs db).variants) :
    (x ∈ db.variants ∧ x.menu_item_id ∉ allItemIds cs ∧ x.id ∉ allVarIds cs ∧
      ∀ d ∈ db.items, d.id = x.menu_item_id → d.category_id ∉ cs.map (fun c => c.id)) ∨
    x ∈ savedVarRows cs := by
  induction cs generalizing j db with
  | nil => exact Or.inl ⟨hx, by simp [allItemIds], by simp [allVarIds], by simp⟩
  | cons c cs ih =>
    rw [allItemIds_cons, List.nodup_append] at hA
    rw [allVarIds_cons, List.nodup_append] at hV
    rcases ih (j + 1) _ (saveCategory_WF restaurantId j c db hWF) hA.2.1 hV.2.1 hx with
      ⟨hdb2, hpar, hvid, hclause⟩ | hsaved
    · rw [mem_saveCategory_variants restaurantId j c db hWF.2.2 hA.1 hV.1] at hdb2
      rcases hdb2 with ⟨hdb, hnpd, hall⟩ | hsavedc
      · have hparc : x.menu_item_id ∉ itemIdsOf c := by
          intro hm
          obtain ⟨i, hi, hieq⟩ := List.mem_map.mp hm
          exact (hall i hi).1 hieq.symm
        refine Or.inl ⟨hdb, ?_, ?_, ?_⟩
        · rw [allItemIds_cons, List.mem_append, not_or]
          exact ⟨hparc, hpar⟩
        · rw [allVarIds_cons, List.mem_append, not_or]
          refine ⟨?_, hvid⟩
          intro hm
          obtain ⟨i, hi, him⟩ := List.mem_flatMap.mp hm
          exact (hall i hi).2 him
        · intro d hd hdid
          simp only [List.map_cons, List.mem_cons, not_or]
          have hdnc : d.category_id ≠ c.id := by
            intro hdc
            exact hnpd ⟨d, hd, hdc, fun hm => hparc (hdid ▸ hm), hdid.symm⟩
          refine ⟨hdnc, ?_⟩
          have hd2 : d ∈ (saveCategory restaurantId j c db).items := by
            rw [mem_saveCategory_items restaurantId j c db hWF.2.1 hA.1]
            exact Or.inl ⟨hd, hdnc, fun hm => hparc (hdid ▸ hm)⟩
          exact hclause d hd2 hdid
      · rw [savedVarRows_cons]
        exact Or.inr (List.mem_append.mpr (Or.inl hsavedc))
    · rw [savedVarRows_cons]
      exact Or.inr (List.mem_append.mpr (Or.inr hsaved))

end WebFixer

namespace WebFixer

theorem savedCatRows_mem (restaurantId : String) (cs : List MenuCategoryUI) (j : ℕ)
    (db : MenuDB) (hcats : (cs.map (fun c => c.id)).Nodup) (r : CategoryRow)
    (hr : r ∈ savedCatRows restaurantId j cs) :
    r ∈ (saveCategories restaurantId j cs db).categories := by
  induction cs generalizing j db with
  | nil => exact absurd hr (List.not_mem_nil r)
  | cons c cs ih =>
    have hcid : c.id ∉ cs.map (fun c => c.id) := (List.nodup_cons.mp hcats).1
    rcases List.mem_cons.mp hr with h | h
    · subst h
      refine saveCategories_preserves_categories restaurantId cs (j + 1) _ _ ?_ hcid
      rw [saveCategory_categories, mem_upsertBy]
      exact Or.inr rfl
    · exact ih (j + 1) _ (List.nodup_cons.mp hcats).2 h

theorem savedItemRows_mem (restaurantId : String) (cs : List MenuCategoryUI) (j : ℕ)
    (db : MenuDB) (hWF : db.WF) (hcats : (cs.map (fun c => c.id)).Nodup)
    (hA : (allItemIds cs).Nodup) (r : ItemRow)
    (hr : r ∈ savedItemRows cs) :
    r ∈ (saveCategories restaurantId j cs db).items := by
  induction cs generalizing j db with
  | nil => exact absurd hr (List.not_mem_nil r)
  | cons c cs ih =>
    have hcid : c.id ∉ cs.map (fun c => c.id) := (List.nodup_cons.mp hcats).1
    rw [allItemIds_cons, List.nodup_append] at hA
    rw [savedItemRows_cons] at hr
    rcases List.mem_append.mp hr with h | h
    · obtain ⟨hcat, hid⟩ := mem_savedItemRowsAux c.id c.items 0 r h
      refine saveCategories_preserves_items restaurantId cs (j + 1) _ _
        (saveCategory_WF restaurantId j c db hWF) hA.2.1 ?_ (hcat ▸ hcid) (hA.2.2 hid)
      rw [mem_saveCategory_items restaurantId j c db hWF.2.1 hA.1]
      exact Or.inr h
    · exact ih (j + 1) _ (saveCategory_WF restaurantId j c db hWF)
        (List.nodup_cons.mp hcats).2 hA.2.1 h

theorem savedVarRows_mem (restaurantId : String) (cs : List MenuCategoryUI) (j : ℕ)
    (db : MenuDB) (hWF : db.WF) (hcats : (cs.map (fun c => c.id)).Nodup)
    (hA : (allItemIds cs).Nodup) (hV : (allVarIds cs).Nodup) (x : VariantRow)
    (hx : x ∈ savedVarRows cs) :
    x ∈ (saveCategories restaurantId j cs db).variants := by
  induction cs generalizing j db with
  | nil => exact absurd hx (List.not_mem_nil x)
  | cons c cs ih =>
    have hcid : c.id ∉ cs.map (fun c => c.id) := (List.nodup_cons.mp hcats).1
    rw [allItemIds_cons, List.nodup_append] at hA
    rw [allVarIds_cons, List.nodup_append] at hV
    rw [savedVarRows_cons] at hx
    rcases List.mem_append.mp hx with h | h
    · obtain ⟨i, hi, hpar, hvid⟩ := mem_savedVarRowsOfItems c.items x h
      have hparc : x.menu_item_id ∈ itemIdsOf c :=
        hpar ▸ List.mem_map_of_mem (fun i => i.id) hi
      have hvidc : x.id ∈ c.items.flatMap varIdsOfItem :=
        List.mem_flatMap.mpr ⟨i, hi, hvid⟩
      refine saveCategories_preserves_variants restaurantId cs (j + 1) _ _
        (saveCategory_WF restaurantId j c db hWF) hA.2.1 hV.2.1 ?_ ?_
        (hA.2.2 hparc) (hV.2.2 hvidc)
      · rw [mem_saveCategory_variants restaurantId j c db hWF.2.2 hA.1 hV.1]
        exact Or.inr h
      · intro d hd hdid
        rw [mem_saveCategory_items restaurantId j c db hWF.2.1 hA.1] at hd
        rcases hd with ⟨_, _, hni⟩ | hdsaved
        · exact absurd (hdid ▸ hparc) hni
        · obtain ⟨hdc, _⟩ := mem_savedItemRowsAux c.id c.items 0 d hdsaved
          exact hdc ▸ hcid
    · exact ih (j + 1) _ (saveCategory_WF restaurantId j c db hWF)
        (List.nodup_cons.mp hcats).2 hA.2.1 hV.2.1 h

end WebFixer

namespace WebFixer

theorem deleteCategoriesCascade_WF (ids : List String) (db : MenuDB) (h : db.WF) :
    (deleteCategoriesCascade ids db).WF := by
  obtain ⟨h1, h2, h3⟩ := h
  exact ⟨nodup_map_filter (fun c => c.id) _ db.categories h1,
    nodup_map_filter (fun i => i.id) _ db.items h2,
    nodup_map_filter (fun v => v.id) _ db.variants h3⟩

/-- The category ids of the restaurant as stored in `db`. -/
def dbCatIdsOf (restaurantId : String) (db : MenuDB) : List String :=
  (db.categories.filter (fun c => decide (c.restaurant_id = restaurantId))).map
    (fun c => c.id)

/-- C4: after a successful editor save, the remote menu state of the
saved restaurant equals the saved in-memory structure.
(a) The restaurant's remote categories are exactly the saved categories,
each with `order` equal to its position; (b) the remote items attached
to saved categories are exactly the saved items with `order` equal to
their position — and (d) every previously existing item of the
restaurant absent from the saved structure is gone; (c) the remote
variants attached to saved items are exactly the saved variants with
`order` equal to their position (an item's variant set is replaced
wholesale) — and (e) every previously existing variant of the
restaurant's items absent from the saved structure is gone. -/
theorem saveRestaurantMenu_spec (restaurantId : String) (cats : List MenuCategoryUI)
    (db : MenuDB) (hWF : db.WF)
    (hcats : (cats.map (fun c => c.id)).Nodup)
    (hA : (allItemIds cats).Nodup)
    (hV : (allVarIds cats).Nodup) :
    (∀ r : CategoryRow,
      (r ∈ (saveRestaurantMenu restaurantId cats db).categories ∧
        r.restaurant_id = restaurantId) ↔ r ∈ savedCatRows restaurantId 0 cats) ∧
    (∀ r : ItemRow,
      (r ∈ (saveRestaurantMenu restaurantId cats db).items ∧
        r.category_id ∈ cats.map (fun c => c.id)) ↔ r ∈ savedItemRows cats) ∧
    (∀ x : VariantRow,
      (x ∈ (saveRestaurantMenu restaurantId cats db).variants ∧
        x.menu_item_id ∈ allItemIds cats) ↔ x ∈ savedVarRows cats) ∧
    (∀ r ∈ db.items, r.category_id ∈ dbCatIdsOf restaurantId db →
      r.id ∉ allItemIds cats → r ∉ (saveRestaurantMenu restaurantId cats db).items) ∧
    (∀ x ∈ db.variants,
      (∃ d ∈ db.items, d.id = x.menu_item_id ∧ d.category_id ∈ dbCatIdsOf restaurantId db) →
      x.id ∉ allVarIds cats → x ∉ (saveRestaurantMenu restaurantId cats db).variants) := by
  simp only [saveRestaurantMenu]
  set TD := ((db.categories.filter (fun c => decide (c.restaurant_id = restaurantId))).map
    (fun c => c.id)).filter
      (fun x : String => decide (x ∉ cats.map (fun c => c.id))) with hTDdef
  set db1 := deleteCategoriesCascade TD db with hdb1def
  have hWF1 : db1.WF := deleteCategoriesCascade_WF TD db hWF
  have hTDmem : ∀ s : String, s ∈ TD ↔
      (s ∈ dbCatIdsOf restaurantId db ∧ s ∉ cats.map (fun c => c.id)) := by
    intro s
    rw [hTDdef, List.mem_filter, decide_eq_true_eq]
    unfold dbCatIdsOf
    tauto
  have hdb1cats : ∀ r : CategoryRow,
      r ∈ db1.categories ↔ (r ∈ db.categories ∧ r.id ∉ TD) := by
    intro r
    rw [hdb1def]
    unfold deleteCategoriesCascade
    simp [List.mem_filter]
  have hdb1items : ∀ r : ItemRow,
      r ∈ db1.items ↔ (r ∈ db.items ∧ r.category_id ∉ TD) := by
    intro r
    rw [hdb1def]
    unfold deleteCategoriesCascade
    simp [List.mem_filter]
  have hdeadmem : ∀ x : VariantRow, x ∈ db1.variants →
      ∀ d ∈ db.items, d.id = x.menu_item_id → d.category_id ∉ TD := by
    intro x hx d hd hdid hdcat
    rw [hdb1def] at hx
    unfold deleteCategoriesCascade at hx
    simp only [List.mem_filter, decide_eq_true_eq] at hx
    exact hx.2 (List.mem_map.mpr ⟨d, by
      rw [List.mem_filter, decide_eq_true_eq]
      exact ⟨hd, hdcat⟩, hdid⟩)
  have hdb1vars_sub : ∀ x : VariantRow, x ∈ db1.variants → x ∈ db.variants := by
    intro x hx
    rw [hdb1def] at hx
    unfold deleteCategoriesCascade at hx
    simp only [List.mem_filter, decide_eq_true_eq] at hx
    exact hx.1
  refine ⟨?_, ?_, ?_, ?_, ?_⟩
  · intro r
    constructor
    · rintro ⟨hr, hrid⟩
      rcases mem_saveCategories_categories restaurantId cats 0 db1 r hr with ⟨hr1, hnot⟩ | h
      · exfalso
        rw [hdb1cats] at hr1
        refine hr1.2 ((hTDmem r.id).mpr ⟨?_, hnot⟩)
        exact List.mem_map.mpr ⟨r, by
          rw [List.mem_filter, decide_eq_true_eq]
          exact ⟨hr1.1, hrid⟩, rfl⟩
      · exact h
    · intro h
      exact ⟨savedCatRows_mem restaurantId cats 0 db1 hcats r h,
        (mem_savedCatRows restaurantId cats 0 r h).1⟩
  · intro r
    constructor
    · rintro ⟨hr, hrcat⟩
      rcases mem_saveCategories_items restaurantId cats 0 db1 r hWF1 hA hr with
        ⟨_, hnc, _⟩ | h
      · exact absurd hrcat hnc
      · exact h
    · intro h
      exact ⟨savedItemRows_mem restaurantId cats 0 db1 hWF1 hcats hA r h,
        (mem_savedItemRows cats r h).2⟩
  · intro x
    constructor
    · rintro ⟨hx, hxpar⟩
      rcases mem_saveCategories_variants restaurantId cats 0 db1 x hWF1 hA hV hx with
        ⟨_, hnp, _, _⟩ | h
      · exact absurd hxpar hnp
      · exact h
    · intro h
      exact ⟨savedVarRows_mem restaurantId cats 0 db1 hWF1 hcats hA hV x h,
        (mem_savedVarRows cats x h).2⟩
  · intro r hr hrcat hrid hmem
    rcases mem_saveCategories_items restaurantId cats 0 db1 r hWF1 hA hmem with
      ⟨hr1, hnc, _⟩ | h
    · rw [hdb1items] at hr1
      exact hr1.2 ((hTDmem r.category_id).mpr ⟨hrcat, hnc⟩)
    · exact hrid (mem_savedItemRows cats r h).1
  · intro x hx hexists hxid hmem
    obtain ⟨d, hd, hdid, hdcat⟩ := hexists
    rcases mem_saveCategories_variants restaurantId cats 0 db1 x hWF1 hA hV hmem with
      ⟨hx1, _, _, hclause⟩ | h
    · by_cases hdnew : d.category_id ∈ cats.map (fun c => c.id)
      · have hd1 : d ∈ db1.items := by
          rw [hdb1items]
          refine ⟨hd, ?_⟩
          intro hdTD
          exact ((hTDmem d.category_id).mp hdTD).2 hdnew
        exact hclause d hd1 hdid hdnew
      · exact hdeadmem x hx1 d hd hdid ((hTDmem d.category_id).mpr ⟨hdcat, hdnew⟩)
    · exact hxid (mem_savedVarRows cats x h).1

end WebFixer

namespace WebFixer

/-- Witness for C4 at a concrete save: one saved category (one item,
one variant) over a remote state holding one stale category with one
item and one variant; the saved category row is present afterwards and
the stale variant is gone. -/
theorem saveRestaurantMenu_spec_witness :
    catRowOf ("r1") 0 (MenuCategoryUI.mk ("c1") ("Drinks")
        [MenuItemUI.mk ("i1") ("Tea") ("") ("5") [MenuItemVariantUI.mk ("v1") ("Big") ("6")]])
      ∈ (saveRestaurantMenu ("r1")
        [MenuCategoryUI.mk ("c1") ("Drinks")
          [MenuItemUI.mk ("i1") ("Tea") ("") ("5") [MenuItemVariantUI.mk ("v1") ("Big") ("6")]]]
        (MenuDB.mk [CategoryRow.mk ("cOld") ("r1") ("Old") 0]
          [ItemRow.mk ("iOld") ("cOld") ("X") ("") ("3") 0]
          [VariantRow.mk ("vOld") ("iOld") ("Y") ("2") 0])).categories ∧
    VariantRow.mk ("vOld") ("iOld") ("Y") ("2") 0
      ∉ (saveRestaurantMenu ("r1")
        [MenuCategoryUI.mk ("c1") ("Drinks")
          [MenuItemUI.mk ("i1") ("Tea") ("") ("5") [MenuItemVariantUI.mk ("v1") ("Big") ("6")]]]
        (MenuDB.mk [CategoryRow.mk ("cOld") ("r1") ("Old") 0]
          [ItemRow.mk ("iOld") ("cOld") ("X") ("") ("3") 0]
          [VariantRow.mk ("vOld") ("iOld") ("Y") ("2") 0])).variants := by
  have h := saveRestaurantMenu_spec ("r1")
    [MenuCategoryUI.mk ("c1") ("Drinks")
      [MenuItemUI.mk ("i1") ("Tea") ("") ("5") [MenuItemVariantUI.mk ("v1") ("Big") ("6")]]]
    (MenuDB.mk [CategoryRow.mk ("cOld") ("r1") ("Old") 0]
      [ItemRow.mk ("iOld") ("cOld") ("X") ("") ("3") 0]
      [VariantRow.mk ("vOld") ("iOld") ("Y") ("2") 0])
    (by refine ⟨?_, ?_, ?_⟩ <;> decide) (by decide) (by decide) (by decide)
  constructor
  · exact ((h.1 _).mpr (by decide)).1
  · exact h.2.2.2.2 (VariantRow.mk ("vOld") ("iOld") ("Y") ("2") 0) (by decide)
      ⟨ItemRow.mk ("iOld") ("cOld") ("X") ("") ("3") 0, by decide, rfl, by decide⟩
      (by decide)

end WebFixer
